import Mathlib

/-!
Verification of the Freshmaker scraper (scrapers/freshmaker.py).

The scraper walks a paginated JSON feed of Freshmaker events, filters events
whose search_key parses as an integer, upserts FreshmakerEvent and Advisory
nodes, resolves each build entry's Koji task id to a build id through a Teiid
query plus XML extraction, upserts ContainerKojiBuild nodes (repairing nodes
errantly typed as plain KojiBuild), and connects the graph edges.

The embedding below models JSON scalars, the graph store operations at their
interface contract, and the pipeline control flow of
FreshmakerScraper.query_api_and_update_neo4j, FreshmakerScraper.run and
FreshmakerScraper.get_koji_task_result.
-/

/-- A JSON scalar value as the scraper sees it: null, an integer, or a
string.  Used for event ids, attribute values, search keys and build ids. -/
inductive JVal
  | jnull
  | jint (n : Int)
  | jstr (s : String)
deriving DecidableEq, Repr

/-- Python truthiness of a JSON scalar: None, 0 and the empty string are
falsy, everything else is truthy. -/
def pyTruthy : JVal → Bool
  | .jnull => false
  | .jint n => n ≠ 0
  | .jstr s => s ≠ ""

/-- Exceptions that can escape the modelled Python code. -/
inductive PyExc
  | valueError
  | typeError
  | xmlParseError
  | constraintViolation
  | pageFatal
  | outOfFuel
deriving DecidableEq, Repr

/-- Strip leading and trailing whitespace from a character list. -/
def stripChars (cs : List Char) : List Char :=
  (((cs.dropWhile Char.isWhitespace).reverse.dropWhile Char.isWhitespace)).reverse

/-- Read a non-empty all-digit character list as a natural number, most
significant digit first; none on a non-digit. -/
def digitsToNat : Nat → List Char → Option Nat
  | acc, [] => some acc
  | acc, c :: cs =>
    if c.isDigit then digitsToNat (10 * acc + (c.toNat - 48)) cs else none

/-- Read a non-empty digit run. -/
def digitsNonempty : List Char → Option Nat
  | [] => none
  | c :: cs => digitsToNat 0 (c :: cs)

/-- Python int() applied to a string: strip whitespace, allow one optional
sign, then decimal digits; anything else raises ValueError. -/
def parseIntStr (s : String) : Option Int :=
  match stripChars s.data with
  | [] => none
  | c :: rest =>
    if c = '-' then (digitsNonempty rest).map (fun n => -(n : Int))
    else if c = '+' then (digitsNonempty rest).map (fun n => (n : Int))
    else (digitsToNat 0 (c :: rest)).map (fun n => (n : Int))

/-- Python int() applied to a JSON scalar: an int is returned as is, a string
is parsed (ValueError on failure), None raises TypeError. -/
def pyInt : JVal → Except PyExc Int
  | .jint n => .ok n
  | .jstr s =>
    match parseIntStr s with
    | some n => .ok n
    | none => .error .valueError
  | .jnull => .error .typeError

/-- A build entry of a Freshmaker event: the fields of build_dict that the
scraper reads. -/
structure BuildDict where
  build_id : JVal
  original_nvr : JVal
deriving DecidableEq, Repr

/-- The attribute fields of a Freshmaker event that are written to the
FreshmakerEvent node (everything passed to create_or_update except id_). -/
structure EventProps where
  event_type_id : JVal
  message_id : JVal
  state : JVal
  state_name : JVal
  state_reason : JVal
  url : JVal
deriving DecidableEq, Repr

/-- One record of the items array of a feed page, with the fields the scraper
reads. -/
structure FmEvent where
  id_ : JVal
  event_type_id : JVal
  message_id : JVal
  state : JVal
  state_name : JVal
  state_reason : JVal
  url : JVal
  search_key : JVal
  builds : List BuildDict
deriving DecidableEq, Repr

/-- The attribute dictionary the scraper passes to
FreshmakerEvent.create_or_update, minus the identity. -/
def mkProps (e : FmEvent) : EventProps :=
  ⟨e.event_type_id, e.message_id, e.state, e.state_name, e.state_reason, e.url⟩

/-- Parse outcome of the task result XML document, abstracting
xml.etree.ElementTree: either the document is structurally malformed
(ET.fromstring raises ParseError), or it parses and the koji_builds string
lookup (xml_root.find) yields no element (none), an element with no text
(some none), or an element with text (some (some s)). -/
inductive XmlDoc
  | malformed
  | parsed (found : Option (Option String))
deriving DecidableEq, Repr

/-- The value of the result column of a Teiid task row: either a falsy value
(NULL or the empty string, for which Python's `not task_result` holds), or a
non-empty string whose XML parse outcome is the given document. -/
inductive ResultVal
  | falsyVal
  | xml (doc : XmlDoc)
deriving DecidableEq, Repr

/-- A row returned by the Teiid query; result is none when the row has no
result column (reading it raises KeyError). -/
structure TeiidRow where
  result : Option ResultVal
deriving DecidableEq, Repr

/-- One page of the Freshmaker feed: the items array and the meta.next
reference. -/
structure Page where
  items : List FmEvent
  next : Option String
deriving DecidableEq, Repr

/-- The external world the scraper talks to: the paginated Freshmaker API
(none models an unparseable or failed page fetch, which is fatal) and the
Teiid tabular query service, keyed by task id. -/
structure Env where
  pages : String → Option Page
  taskRows : Int → List TeiidRow

/-- A FreshmakerEvent node in the graph store. -/
structure EventNode where
  id_ : JVal
  props : EventProps
deriving DecidableEq, Repr

/-- A build node in the graph store: its identity, its original_nvr
attribute and the set of type labels it carries. -/
structure BuildNode where
  id_ : String
  original_nvr : JVal
  labels : List String
deriving DecidableEq, Repr

/-- The KojiBuild type label. -/
def kojiLabel : String := "KojiBuild"

/-- The ContainerKojiBuild type label. -/
def containerLabel : String := "ContainerKojiBuild"

/-- The graph store state: the three node collections and the two
relationship kinds the scraper writes.  Advisory nodes carry nothing beyond
their identity here. -/
structure GraphState where
  events : List EventNode
  advisories : List Int
  builds : List BuildNode
  triggered_by : List (JVal × Int)
  triggered_builds : List (JVal × String)
deriving DecidableEq, Repr

/-- The empty graph store. -/
def emptyStore : GraphState := ⟨[], [], [], [], []⟩

/-- Modelled from the spec: FreshmakerEvent.create_or_update (the
estuary.models.freshmaker model class is not part of the scraper source) —
idempotent typed upsert keyed by the identity field: update the attributes of
the existing node with that identity, or create it. -/
def FreshmakerEvent.create_or_update (i : JVal) (p : EventProps) (st : GraphState) : GraphState :=
  if st.events.any (fun n => n.id_ = i) then
    { st with events := st.events.map (fun n => if n.id_ = i then ⟨i, p⟩ else n) }
  else
    { st with events := st.events ++ [⟨i, p⟩] }

/-- Modelled from the spec: Advisory.get_or_create (the
estuary.models.errata model class is not part of the scraper source) — return
the advisory with that identity or create it; attributes beyond identity are
out of scope.  Per the spec the Advisory identity is an integer, so the
search_key value the scraper passes is stored through its integer parse. -/
def Advisory.get_or_create (k : Int) (st : GraphState) : GraphState :=
  if k ∈ st.advisories then st
  else { st with advisories := st.advisories ++ [k] }

/-- Modelled from the spec: EstuaryStructuredNode.conditional_connect on the
zero-or-one triggered_by_advisory relationship (estuary.models.base is not
part of the scraper source) — connect the event to the advisory only when the
event has no triggered_by edge yet; a no-op when this or any advisory is
already connected. -/
def conditional_connect (eid : JVal) (k : Int) (st : GraphState) : GraphState :=
  if st.triggered_by.any (fun pr => pr.1 = eid) then st
  else { st with triggered_by := st.triggered_by ++ [(eid, k)] }

/-- Modelled from the spec: the idempotent relationship connect of the graph
store client applied to triggered_container_builds — add the edge unless it
is already present. -/
def connect_triggered_builds (eid : JVal) (bid : String) (st : GraphState) : GraphState :=
  if (eid, bid) ∈ st.triggered_builds then st
  else { st with triggered_builds := st.triggered_builds ++ [(eid, bid)] }

/-- Modelled from the spec: ContainerKojiBuild.create_or_update — typed
upsert under the uniqueness constraint on the build identity.  If a node with
this identity exists and carries the ContainerKojiBuild label, its attributes
are updated; if a node with this identity exists under an incompatible label
set the store raises ConstraintValidationFailed; otherwise the node is
created carrying both the KojiBuild and ContainerKojiBuild labels. -/
def ContainerKojiBuild.create_or_update (bid : String) (nvr : JVal) (st : GraphState) :
    Except PyExc GraphState :=
  match st.builds.find? (fun b => b.id_ = bid) with
  | some b =>
    if containerLabel ∈ b.labels then
      .ok { st with builds :=
        st.builds.map (fun c => if c.id_ = bid then { c with original_nvr := nvr } else c) }
    else
      .error .constraintViolation
  | none =>
    .ok { st with builds := st.builds ++ [⟨bid, nvr, [kojiLabel, containerLabel]⟩] }

/-- Modelled from the spec: KojiBuild.nodes.get_or_none — look up the node
with the given identity that carries the KojiBuild label. -/
def KojiBuild.get_or_none (bid : String) (st : GraphState) : Option BuildNode :=
  st.builds.find? (fun b => b.id_ = bid && b.labels.contains kojiLabel)

/-- Modelled from the spec: build.add_label(ContainerKojiBuild.__label__) —
add the ContainerKojiBuild label in place to the node with this identity. -/
def add_label (bid : String) (st : GraphState) : GraphState :=
  { st with builds := st.builds.map (fun b =>
      if b.id_ = bid then { b with labels := b.labels ++ [containerLabel] } else b) }

/-- The try/except ConstraintValidationFailed block around
ContainerKojiBuild.create_or_update in query_api_and_update_neo4j: on a
constraint violation, look the node up as a plain KojiBuild; re-raise if it
is absent, otherwise add the ContainerKojiBuild label and retry the typed
create_or_update once, any error of the retry propagating.  The returned
number counts the create_or_update attempts taken. -/
def upsertContainerBuild (bid : String) (nvr : JVal) (st : GraphState) :
    Except PyExc (GraphState × Nat) :=
  match ContainerKojiBuild.create_or_update bid nvr st with
  | .ok st' => .ok (st', 1)
  | .error .constraintViolation =>
    match KojiBuild.get_or_none bid st with
    | none => .error .constraintViolation
    | some _ =>
      match ContainerKojiBuild.create_or_update bid nvr (add_label bid st) with
      | .ok st' => .ok (st', 2)
      | .error e => .error e
  | .error e => .error e

/-- FreshmakerScraper.get_koji_task_result: query Teiid for the task's result
column; IndexError (no row) and KeyError (no result column) give None. -/
def get_koji_task_result (env : Env) (task_id : Int) : Option ResultVal :=
  match env.taskRows task_id with
  | [] => none
  | row :: _ => row.result

/-- The body of the per-build loop of query_api_and_update_neo4j: skip falsy
or negative build ids (an unparseable truthy build id raises out of int()),
resolve the task result, skip falsy results, parse the XML (a malformed
document raises ParseError out of ET.fromstring), extract the first
koji_builds string (an absent element raises AttributeError which is caught,
giving None), skip falsy build ids, then upsert the ContainerKojiBuild and
connect the triggered_builds edge. -/
def processBuild (env : Env) (eid : JVal) (bd : BuildDict) (st : GraphState) :
    Except PyExc GraphState :=
  if pyTruthy bd.build_id = false then .ok st
  else
    match pyInt bd.build_id with
    | .error e => .error e
    | .ok taskId =>
      if taskId < 0 then .ok st
      else
        match get_koji_task_result env taskId with
        | none => .ok st
        | some .falsyVal => .ok st
        | some (.xml .malformed) => .error .xmlParseError
        | some (.xml (.parsed found)) =>
          let build_id : Option String :=
            match found with
            | none => none
            | some t => t
          match build_id with
          | none => .ok st
          | some s =>
            if s = "" then .ok st
            else
              match upsertContainerBuild s bd.original_nvr st with
              | .error e => .error e
              | .ok (st', _) => .ok (connect_triggered_builds eid s st')

/-- The per-build loop over an event's builds list, threading the graph
state; an escaping exception aborts the run. -/
def processBuilds (env : Env) (eid : JVal) : List BuildDict → GraphState →
    Except PyExc GraphState
  | [], st => .ok st
  | bd :: rest, st =>
    match processBuild env eid bd st with
    | .error e => .error e
    | .ok st' => processBuilds env eid rest st'

/-- The body of the per-event loop of query_api_and_update_neo4j: the
search_key must pass int() (ValueError is caught and skips the event, any
other exception escapes), then the FreshmakerEvent is upserted, the Advisory
is upserted by the search_key, the triggered_by edge is conditionally
connected, and the builds are processed. -/
def processEvent (env : Env) (e : FmEvent) (st : GraphState) : Except PyExc GraphState :=
  match pyInt e.search_key with
  | .error .valueError => .ok st
  | .error err => .error err
  | .ok k =>
    let st₁ := FreshmakerEvent.create_or_update e.id_ (mkProps e) st
    let st₂ := Advisory.get_or_create k st₁
    let st₃ := conditional_connect e.id_ k st₂
    processBuilds env e.id_ e.builds st₃

/-- The per-page loop over the items array. -/
def processEvents (env : Env) : List FmEvent → GraphState → Except PyExc GraphState
  | [], st => .ok st
  | e :: rest, st =>
    match processEvent env e st with
    | .error err => .error err
    | .ok st' => processEvents env rest st'

/-- FreshmakerScraper.query_api_and_update_neo4j: fetch the page at the
current url (an unparseable page is fatal), process its items, then follow
meta.next until absent.  The fuel argument is an artifact of the embedding
bounding the number of iterations; the returned number counts the page
fetches performed. -/
def query_api_and_update_neo4j (env : Env) : Nat → String → GraphState →
    Except PyExc (GraphState × Nat)
  | 0, _, _ => .error .outOfFuel
  | fuel + 1, url, st =>
    match env.pages url with
    | none => .error .pageFatal
    | some page =>
      match processEvents env page.items st with
      | .error e => .error e
      | .ok st₁ =>
        match page.next with
        | none => .ok (st₁, 1)
        | some u =>
          match query_api_and_update_neo4j env fuel u st₁ with
          | .error e => .error e
          | .ok (st₂, c) => .ok (st₂, c + 1)

/-- The initial feed url of the scraper. -/
def freshmaker_url : String :=
  "https://freshmaker.engineering.redhat.com/api/1/events/?per_page=100"

/-- FreshmakerScraper.run: the since/until parameters are ignored for this
data source; the full pagination sweep starts at the fixed feed url. -/
def FreshmakerScraper.run (env : Env) (fuel : Nat) (_since _till : Option String)
    (st : GraphState) : Except PyExc (GraphState × Nat) :=
  query_api_and_update_neo4j env fuel freshmaker_url st

/-! ## Derived views of the pipeline
Definitions below are views computed from the feed and the environment alone
(which event and build writes a run performs), and structural views of the
graph state, used to state and prove the claims. -/

/-- Whether an event passes the search_key integer filter (int() succeeds). -/
def passes_filter (e : FmEvent) : Bool :=
  match pyInt e.search_key with
  | .ok _ => true
  | .error _ => false

/-- The build id that a build entry resolves to, when it survives every skip
condition of the per-build loop and reaches the ContainerKojiBuild upsert;
none when the entry is skipped or aborts the run. -/
def resolvedId (env : Env) (bd : BuildDict) : Option String :=
  if pyTruthy bd.build_id = false then none
  else
    match pyInt bd.build_id with
    | .error _ => none
    | .ok taskId =>
      if taskId < 0 then none
      else
        match get_koji_task_result env taskId with
        | none => none
        | some .falsyVal => none
        | some (.xml .malformed) => none
        | some (.xml (.parsed found)) =>
          match found with
          | none => none
          | some none => none
          | some (some s) => if s = "" then none else some s

/-- Whether the per-build loop raises on this entry before reaching the
upsert: a truthy build id on which int() raises, or a malformed task result
document. -/
def bdFatal (env : Env) (bd : BuildDict) : Bool :=
  pyTruthy bd.build_id &&
    (match pyInt bd.build_id with
     | .error _ => true
     | .ok taskId =>
       !(taskId < 0 : Bool) &&
         (match get_koji_task_result env taskId with
          | some (.xml .malformed) => true
          | _ => false))

/-- The exception the per-build loop raises on an entry with bdFatal. -/
def bdErr (bd : BuildDict) : PyExc :=
  match pyInt bd.build_id with
  | .error e => e
  | .ok _ => .xmlParseError

/-- The attributes of the last write a run of the per-event loop performs to
the event node with the given identity, if any. -/
def lastEventWrite : List FmEvent → JVal → Option EventProps
  | [], _ => none
  | e :: rest, i =>
    match lastEventWrite rest i with
    | some p => some p
    | none => if passes_filter e && e.id_ = i then some (mkProps e) else none

/-- The original_nvr of the last write a builds list performs to the build
node with the given identity, if any. -/
def lastBuildWriteBuilds (env : Env) : List BuildDict → String → Option JVal
  | [], _ => none
  | bd :: rest, bid =>
    match lastBuildWriteBuilds env rest bid with
    | some v => some v
    | none => if resolvedId env bd = some bid then some bd.original_nvr else none

/-- The original_nvr of the last write a single event performs to the build
node with the given identity, if any. -/
def lastBuildWriteEvent (env : Env) (e : FmEvent) (bid : String) : Option JVal :=
  if passes_filter e then lastBuildWriteBuilds env e.builds bid else none

/-- The original_nvr of the last write a run of the per-event loop performs
to the build node with the given identity, if any. -/
def lastBuildWrite (env : Env) : List FmEvent → String → Option JVal
  | [], _ => none
  | e :: rest, bid =>
    match lastBuildWrite env rest bid with
    | some v => some v
    | none => lastBuildWriteEvent env e bid

/-- The attributes of the event node with the given identity, if present. -/
def nodeProps (st : GraphState) (i : JVal) : Option EventProps :=
  (st.events.find? (fun n => n.id_ = i)).map EventNode.props

/-- The original_nvr of the build node with the given identity, if present. -/
def buildNvr (st : GraphState) (bid : String) : Option JVal :=
  (st.builds.find? (fun b => b.id_ = bid)).map BuildNode.original_nvr

/-- The identity-and-labels view of a build node. -/
def buildKey (b : BuildNode) : String × List String := (b.id_, b.labels)

/-- Structural equality of graph states: the same node identities (and build
labels) in the same order, and the same edges; only attribute values may
differ. -/
def StructEq (x y : GraphState) : Prop :=
  x.events.map EventNode.id_ = y.events.map EventNode.id_ ∧
  x.advisories = y.advisories ∧
  x.builds.map buildKey = y.builds.map buildKey ∧
  x.triggered_by = y.triggered_by ∧
  x.triggered_builds = y.triggered_builds

/-- Well-formedness of the graph store as enforced by its uniqueness
constraints: node identities are unique within each node collection. -/
def WF (st : GraphState) : Prop :=
  (st.events.map EventNode.id_).Nodup ∧ (st.builds.map BuildNode.id_).Nodup

/-- The state already holds everything processing the given event can
create: its event node, its advisory, a triggered_by edge for it, and for
every build id it resolves a ContainerKojiBuild-labelled node plus the
triggered_builds edge. -/
def CoversEvent (env : Env) (st : GraphState) (e : FmEvent) : Prop :=
  ∀ k, pyInt e.search_key = .ok k →
    (∃ n ∈ st.events, n.id_ = e.id_) ∧
    k ∈ st.advisories ∧
    (∃ a, (e.id_, a) ∈ st.triggered_by) ∧
    ∀ bid, (∃ bd ∈ e.builds, resolvedId env bd = some bid) →
      (∃ b ∈ st.builds, b.id_ = bid ∧ containerLabel ∈ b.labels) ∧
      (e.id_, bid) ∈ st.triggered_builds

/-- Overwrite the attributes of the event node with the given identity. -/
def applyEventWrite (i : JVal) (p : EventProps) (st : GraphState) : GraphState :=
  { st with events := st.events.map (fun n => if n.id_ = i then ⟨i, p⟩ else n) }

/-- Overwrite the original_nvr of the build node with the given identity. -/
def applyBuildWrite (bid : String) (nvr : JVal) (st : GraphState) : GraphState :=
  { st with builds := st.builds.map (fun b =>
      if b.id_ = bid then { b with original_nvr := nvr } else b) }

/-- The attribute overwrites a builds list performs, in order. -/
def applyBuildWrites (env : Env) : List BuildDict → GraphState → GraphState
  | [], st => st
  | bd :: rest, st =>
    applyBuildWrites env rest
      (match resolvedId env bd with
       | none => st
       | some bid => applyBuildWrite bid bd.original_nvr st)

/-- The attribute overwrites a single event performs, in order. -/
def applyWrites (env : Env) (e : FmEvent) (st : GraphState) : GraphState :=
  if passes_filter e then
    applyBuildWrites env e.builds (applyEventWrite e.id_ (mkProps e) st)
  else st

/-- The attribute overwrites a run of the per-event loop performs, in
order. -/
def applyAll (env : Env) : List FmEvent → GraphState → GraphState
  | [], st => st
  | e :: rest, st => applyAll env rest (applyWrites env e st)

/-- The concatenated items of the pages the pagination loop visits from the
given url, together with the number of page fetches, when the loop
terminates within the given fuel. -/
def feedItems (env : Env) : Nat → String → Option (List FmEvent × Nat)
  | 0, _ => none
  | fuel + 1, url =>
    match env.pages url with
    | none => none
    | some page =>
      match page.next with
      | none => some (page.items, 1)
      | some u =>
        match feedItems env fuel u with
        | none => none
        | some (l, c) => some (page.items ++ l, c + 1)

/-- The feed reachable from the given url is exactly the given finite list
of pages: each page is fetched at that url, carries a next reference to the
following page, and the last page carries none. -/
def feedChain (env : Env) : String → List Page → Bool
  | _, [] => false
  | url, [p] => env.pages url = some p && p.next = none
  | url, p :: q :: rest =>
    match env.pages url, p.next with
    | some p', some u => p' = p && feedChain env u (q :: rest)
    | _, _ => false

/-! ## Concrete instances
Small closed environments and states used to evaluate the pipeline at
concrete inputs. -/

/-- A concrete Freshmaker event matching the end-to-end scenario: advisory
search_key "7" and one build entry whose task 101 resolves to build "55". -/
def eC1 : FmEvent :=
  ⟨.jint 42, .jint 1, .jstr "m", .jint 2, .jstr "DONE", .jstr "", .jstr "http",
    .jstr "7", [⟨.jint 101, .jstr "pkg-1.0-1"⟩]⟩

/-- A one-page feed serving eC1, with task 101 resolving to build "55". -/
def envC1 : Env :=
  ⟨fun u => if u = "p1" then some ⟨[eC1], none⟩ else none,
   fun t => if t = 101 then [⟨some (.xml (.parsed (some (some "55"))))⟩] else []⟩

/-- The graph the pipeline builds from envC1. -/
def stC1 : GraphState :=
  ⟨[⟨.jint 42, ⟨.jint 1, .jstr "m", .jint 2, .jstr "DONE", .jstr "", .jstr "http"⟩⟩],
   [7],
   [⟨"55", .jstr "pkg-1.0-1", [kojiLabel, containerLabel]⟩],
   [(.jint 42, 7)],
   [(.jint 42, "55")]⟩

/-- A store holding build "b1" typed only as a generic KojiBuild. -/
def stC2 : GraphState := ⟨[], [], [⟨"b1", .jnull, ["KojiBuild"]⟩], [], []⟩

/-- A one-page feed whose event has a build with a malformed task result
(task 101) followed by a build that would resolve cleanly (task 102). -/
def envC3 : Env :=
  ⟨fun u => if u = "p1" then some ⟨[⟨.jint 9, .jint 1, .jstr "m", .jint 2, .jstr "D",
      .jstr "", .jstr "u", .jstr "7",
      [⟨.jint 101, .jstr "n1"⟩, ⟨.jint 102, .jstr "n2"⟩]⟩], none⟩ else none,
   fun t => if t = 101 then [⟨some (.xml .malformed)⟩]
     else if t = 102 then [⟨some (.xml (.parsed (some (some "55"))))⟩] else []⟩

/-- An environment that resolves task 0 to build "55". -/
def envC4 : Env :=
  ⟨fun _ => none,
   fun t => if t = 0 then [⟨some (.xml (.parsed (some (some "55"))))⟩] else []⟩

/-- An environment with no pages and no task rows. -/
def envNone : Env := ⟨fun _ => none, fun _ => []⟩

/-- A concrete event with search_key "7" and no builds. -/
def eC5 : FmEvent :=
  ⟨.jint 11, .jint 1, .jstr "m", .jint 2, .jstr "D", .jstr "", .jstr "u", .jstr "7", []⟩

/-- A concrete event whose search_key is null. -/
def eC6 : FmEvent :=
  ⟨.jint 12, .jint 1, .jstr "m", .jint 2, .jstr "D", .jstr "", .jstr "u", .jnull, []⟩

/-- A simple event with an integer search_key and no builds. -/
def mkSimpleEvent (i : Int) (sk : String) : FmEvent :=
  ⟨.jint i, .jint 1, .jstr "m", .jint 2, .jstr "D", .jstr "", .jstr "u", .jstr sk, []⟩

/-- A three-page feed: pages q1 and q2 carry a next reference, q3 does
not. -/
def envC8 : Env :=
  ⟨fun u =>
    if u = "q1" then some ⟨[mkSimpleEvent 1 "1"], some "q2"⟩
    else if u = "q2" then some ⟨[mkSimpleEvent 2 "2"], some "q3"⟩
    else if u = "q3" then some ⟨[mkSimpleEvent 3 "3"], none⟩
    else none,
   fun _ => []⟩

/-- The pages of envC8 in feed order. -/
def psC8 : List Page :=
  [⟨[mkSimpleEvent 1 "1"], some "q2"⟩, ⟨[mkSimpleEvent 2 "2"], some "q3"⟩,
   ⟨[mkSimpleEvent 3 "3"], none⟩]

/-- The graph the pipeline builds from envC8. -/
def stC8 : GraphState :=
  ⟨[⟨.jint 1, ⟨.jint 1, .jstr "m", .jint 2, .jstr "D", .jstr "", .jstr "u"⟩⟩,
    ⟨.jint 2, ⟨.jint 1, .jstr "m", .jint 2, .jstr "D", .jstr "", .jstr "u"⟩⟩,
    ⟨.jint 3, ⟨.jint 1, .jstr "m", .jint 2, .jstr "D", .jstr "", .jstr "u"⟩⟩],
   [1, 2, 3], [],
   [(.jint 1, 1), (.jint 2, 2), (.jint 3, 3)], []⟩

/-- A one-page feed whose event has a build entry with the non-numeric
build_id "abc" followed by a build that would resolve cleanly. -/
def envC10 : Env :=
  ⟨fun u => if u = "p1" then some ⟨[⟨.jint 9, .jint 1, .jstr "m", .jint 2, .jstr "D",
      .jstr "", .jstr "u", .jstr "7",
      [⟨.jstr "abc", .jstr "n1"⟩, ⟨.jint 102, .jstr "n2"⟩]⟩], none⟩ else none,
   fun t => if t = 102 then [⟨some (.xml (.parsed (some (some "55"))))⟩] else []⟩

/-- Everything the coverage predicate looks at in the source state is still
present in the target state. -/
def Mono (s s' : GraphState) : Prop :=
  (∀ i, (∃ n ∈ s.events, n.id_ = i) → ∃ n ∈ s'.events, n.id_ = i) ∧
  (∀ k, k ∈ s.advisories → k ∈ s'.advisories) ∧
  (∀ i, (∃ a, (i, a) ∈ s.triggered_by) → ∃ a, (i, a) ∈ s'.triggered_by) ∧
  (∀ bid, (∃ b ∈ s.builds, b.id_ = bid ∧ containerLabel ∈ b.labels) →
    ∃ b ∈ s'.builds, b.id_ = bid ∧ containerLabel ∈ b.labels) ∧
  (∀ pr : JVal × String, pr ∈ s.triggered_builds → pr ∈ s'.triggered_builds)

/-! ## Frame lemmas
Each store operation leaves the components it does not write unchanged. -/

@[simp] theorem cou_advisories (i : JVal) (p : EventProps) (st : GraphState) :
    (FreshmakerEvent.create_or_update i p st).advisories = st.advisories := by
  unfold FreshmakerEvent.create_or_update; split <;> rfl

@[simp] theorem cou_builds (i : JVal) (p : EventProps) (st : GraphState) :
    (FreshmakerEvent.create_or_update i p st).builds = st.builds := by
  unfold FreshmakerEvent.create_or_update; split <;> rfl

@[simp] theorem cou_triggered_by (i : JVal) (p : EventProps) (st : GraphState) :
    (FreshmakerEvent.create_or_update i p st).triggered_by = st.triggered_by := by
  unfold FreshmakerEvent.create_or_update; split <;> rfl

@[simp] theorem cou_triggered_builds (i : JVal) (p : EventProps) (st : GraphState) :
    (FreshmakerEvent.create_or_update i p st).triggered_builds = st.triggered_builds := by
  unfold FreshmakerEvent.create_or_update; split <;> rfl

@[simp] theorem goc_events (k : Int) (st : GraphState) :
    (Advisory.get_or_create k st).events = st.events := by
  unfold Advisory.get_or_create; split <;> rfl

@[simp] theorem goc_builds (k : Int) (st : GraphState) :
    (Advisory.get_or_create k st).builds = st.builds := by
  unfold Advisory.get_or_create; split <;> rfl

@[simp] theorem goc_triggered_by (k : Int) (st : GraphState) :
    (Advisory.get_or_create k st).triggered_by = st.triggered_by := by
  unfold Advisory.get_or_create; split <;> rfl

@[simp] theorem goc_triggered_builds (k : Int) (st : GraphState) :
    (Advisory.get_or_create k st).triggered_builds = st.triggered_builds := by
  unfold Advisory.get_or_create; split <;> rfl

@[simp] theorem cc_events (eid : JVal) (k : Int) (st : GraphState) :
    (conditional_connect eid k st).events = st.events := by
  unfold conditional_connect; split <;> rfl

@[simp] theorem cc_advisories (eid : JVal) (k : Int) (st : GraphState) :
    (conditional_connect eid k st).advisories = st.advisories := by
  unfold conditional_connect; split <;> rfl

@[simp] theorem cc_builds (eid : JVal) (k : Int) (st : GraphState) :
    (conditional_connect eid k st).builds = st.builds := by
  unfold conditional_connect; split <;> rfl

@[simp] theorem cc_triggered_builds (eid : JVal) (k : Int) (st : GraphState) :
    (conditional_connect eid k st).triggered_builds = st.triggered_builds := by
  unfold conditional_connect; split <;> rfl

@[simp] theorem ctb_events (eid : JVal) (bid : String) (st : GraphState) :
    (connect_triggered_builds eid bid st).events = st.events := by
  unfold connect_triggered_builds; split <;> rfl

@[simp] theorem ctb_advisories (eid : JVal) (bid : String) (st : GraphState) :
    (connect_triggered_builds eid bid st).advisories = st.advisories := by
  unfold connect_triggered_builds; split <;> rfl

@[simp] theorem ctb_builds (eid : JVal) (bid : String) (st : GraphState) :
    (connect_triggered_builds eid bid st).builds = st.builds := by
  unfold connect_triggered_builds; split <;> rfl

@[simp] theorem ctb_triggered_by (eid : JVal) (bid : String) (st : GraphState) :
    (connect_triggered_builds eid bid st).triggered_by = st.triggered_by := by
  unfold connect_triggered_builds; split <;> rfl

@[simp] theorem al_events (bid : String) (st : GraphState) :
    (add_label bid st).events = st.events := rfl

@[simp] theorem al_advisories (bid : String) (st : GraphState) :
    (add_label bid st).advisories = st.advisories := rfl

@[simp] theorem al_triggered_by (bid : String) (st : GraphState) :
    (add_label bid st).triggered_by = st.triggered_by := rfl

@[simp] theorem al_triggered_builds (bid : String) (st : GraphState) :
    (add_label bid st).triggered_builds = st.triggered_builds := rfl

/-- The typed build upsert touches only the builds collection. -/
theorem ckb_cou_frame {bid : String} {nvr : JVal} {st st' : GraphState}
    (h : ContainerKojiBuild.create_or_update bid nvr st = .ok st') :
    st'.events = st.events ∧ st'.advisories = st.advisories ∧
    st'.triggered_by = st.triggered_by ∧ st'.triggered_builds = st.triggered_builds := by
  unfold ContainerKojiBuild.create_or_update at h
  split at h
  · split at h
    · cases h; exact ⟨rfl, rfl, rfl, rfl⟩
    · cases h
  · cases h; exact ⟨rfl, rfl, rfl, rfl⟩

/-- The reconciling build upsert touches only the builds collection. -/
theorem upsert_frame {bid : String} {nvr : JVal} {st st' : GraphState} {c : Nat}
    (h : upsertContainerBuild bid nvr st = .ok (st', c)) :
    st'.events = st.events ∧ st'.advisories = st.advisories ∧
    st'.triggered_by = st.triggered_by ∧ st'.triggered_builds = st.triggered_builds := by
  unfold upsertContainerBuild at h
  split at h
  · rename_i st₁ h₁
    cases h
    exact ckb_cou_frame h₁
  · rename_i h₁
    split at h
    · cases h
    · split at h
      · rename_i st₁ h₂
        cases h
        have := ckb_cou_frame h₂
        simpa using this
      · cases h
  · cases h

/-- Searching a mapped list with a predicate the map preserves finds the
image of the original hit. -/
theorem find?_map_of_pres {α : Type} (f : α → α) (p : α → Bool)
    (hp : ∀ a, p (f a) = p a) (l : List α) :
    (l.map f).find? p = (l.find? p).map f := by
  rw [List.find?_map]
  have : p ∘ f = p := funext hp
  rw [this]

/-- The event overwrite map preserves identities. -/
theorem eventWriteFun_id (i : JVal) (p : EventProps) (n : EventNode) :
    ((if n.id_ = i then (⟨i, p⟩ : EventNode) else n)).id_ = n.id_ := by
  split
  · rename_i h; exact h.symm
  · rfl

/-- The build attribute overwrite map preserves identities. -/
theorem buildWriteFun_id (bid : String) (nvr : JVal) (b : BuildNode) :
    ((if b.id_ = bid then { b with original_nvr := nvr } else b)).id_ = b.id_ := by
  split <;> rfl

/-- The build attribute overwrite map preserves identity and labels. -/
theorem buildWriteFun_key (bid : String) (nvr : JVal) (b : BuildNode) :
    buildKey (if b.id_ = bid then { b with original_nvr := nvr } else b) = buildKey b := by
  split <;> rfl

/-- The label addition map preserves identities. -/
theorem addLabelFun_id (bid : String) (b : BuildNode) :
    ((if b.id_ = bid then { b with labels := b.labels ++ [containerLabel] } else b)).id_ =
      b.id_ := by
  split <;> rfl

/-- The label addition map preserves original_nvr. -/
theorem addLabelFun_nvr (bid : String) (b : BuildNode) :
    ((if b.id_ = bid then { b with labels := b.labels ++ [containerLabel] } else b)).original_nvr =
      b.original_nvr := by
  split <;> rfl

@[simp] theorem applyEventWrite_ids (i : JVal) (p : EventProps) (st : GraphState) :
    (applyEventWrite i p st).events.map EventNode.id_ = st.events.map EventNode.id_ := by
  unfold applyEventWrite
  simp only [List.map_map]
  congr 1
  funext n
  exact eventWriteFun_id i p n

@[simp] theorem applyEventWrite_advisories (i : JVal) (p : EventProps) (st : GraphState) :
    (applyEventWrite i p st).advisories = st.advisories := rfl

@[simp] theorem applyEventWrite_builds (i : JVal) (p : EventProps) (st : GraphState) :
    (applyEventWrite i p st).builds = st.builds := rfl

@[simp] theorem applyEventWrite_triggered_by (i : JVal) (p : EventProps) (st : GraphState) :
    (applyEventWrite i p st).triggered_by = st.triggered_by := rfl

@[simp] theorem applyEventWrite_triggered_builds (i : JVal) (p : EventProps) (st : GraphState) :
    (applyEventWrite i p st).triggered_builds = st.triggered_builds := rfl

/-- Overwriting the event with identity i rewrites its attributes when it is
present. -/
theorem nodeProps_applyEventWrite_self {st : GraphState} {i : JVal} (p : EventProps)
    (h : nodeProps st i ≠ none) : nodeProps (applyEventWrite i p st) i = some p := by
  unfold nodeProps applyEventWrite at *
  rw [find?_map_of_pres _ _ (fun n => by rw [eventWriteFun_id])]
  cases hf : st.events.find? (fun n => decide (n.id_ = i)) with
  | none => rw [hf] at h; simp at h
  | some n =>
    have hn : n.id_ = i := by simpa using List.find?_some hf
    simp [Option.map, if_pos hn]

/-- Overwriting an absent event node is the identity on the lookup. -/
theorem nodeProps_applyEventWrite_none {st : GraphState} {i : JVal} (p : EventProps)
    (h : nodeProps st i = none) : nodeProps (applyEventWrite i p st) i = none := by
  unfold nodeProps applyEventWrite at *
  rw [find?_map_of_pres _ _ (fun n => by rw [eventWriteFun_id])]
  cases hf : st.events.find? (fun n => decide (n.id_ = i)) with
  | none => rfl
  | some n => rw [hf] at h; simp at h

/-- Overwriting one event leaves other event lookups unchanged. -/
theorem nodeProps_applyEventWrite_other {st : GraphState} {i j : JVal} (p : EventProps)
    (h : j ≠ i) : nodeProps (applyEventWrite i p st) j = nodeProps st j := by
  unfold nodeProps applyEventWrite
  rw [find?_map_of_pres _ _ (fun n => by rw [eventWriteFun_id])]
  cases hf : st.events.find? (fun n => decide (n.id_ = j)) with
  | none => rfl
  | some n =>
    have hn : n.id_ = j := by simpa using List.find?_some hf
    have : ¬ n.id_ = i := by rw [hn]; exact h
    simp [Option.map, if_neg this]

@[simp] theorem applyBuildWrite_keys (bid : String) (nvr : JVal) (st : GraphState) :
    (applyBuildWrite bid nvr st).builds.map buildKey = st.builds.map buildKey := by
  unfold applyBuildWrite
  simp only [List.map_map]
  congr 1
  funext b
  exact buildWriteFun_key bid nvr b

@[simp] theorem applyBuildWrite_ids (bid : String) (nvr : JVal) (st : GraphState) :
    (applyBuildWrite bid nvr st).builds.map BuildNode.id_ = st.builds.map BuildNode.id_ := by
  unfold applyBuildWrite
  simp only [List.map_map]
  congr 1
  funext b
  exact buildWriteFun_id bid nvr b

@[simp] theorem applyBuildWrite_events (bid : String) (nvr : JVal) (st : GraphState) :
    (applyBuildWrite bid nvr st).events = st.events := rfl

@[simp] theorem applyBuildWrite_advisories (bid : String) (nvr : JVal) (st : GraphState) :
    (applyBuildWrite bid nvr st).advisories = st.advisories := rfl

@[simp] theorem applyBuildWrite_triggered_by (bid : String) (nvr : JVal) (st : GraphState) :
    (applyBuildWrite bid nvr st).triggered_by = st.triggered_by := rfl

@[simp] theorem applyBuildWrite_triggered_builds (bid : String) (nvr : JVal) (st : GraphState) :
    (applyBuildWrite bid nvr st).triggered_builds = st.triggered_builds := rfl

/-- Overwriting the build with identity bid rewrites its attribute when it is
present. -/
theorem buildNvr_applyBuildWrite_self {st : GraphState} {bid : String} (nvr : JVal)
    (h : buildNvr st bid ≠ none) : buildNvr (applyBuildWrite bid nvr st) bid = some nvr := by
  unfold buildNvr applyBuildWrite at *
  rw [find?_map_of_pres _ _ (fun b => by rw [buildWriteFun_id])]
  cases hf : st.builds.find? (fun b => decide (b.id_ = bid)) with
  | none => rw [hf] at h; simp at h
  | some b =>
    have hb : b.id_ = bid := by simpa using List.find?_some hf
    simp [Option.map, if_pos hb]

/-- Overwriting an absent build node is the identity on the lookup. -/
theorem buildNvr_applyBuildWrite_none {st : GraphState} {bid : String} (nvr : JVal)
    (h : buildNvr st bid = none) : buildNvr (applyBuildWrite bid nvr st) bid = none := by
  unfold buildNvr applyBuildWrite at *
  rw [find?_map_of_pres _ _ (fun b => by rw [buildWriteFun_id])]
  cases hf : st.builds.find? (fun b => decide (b.id_ = bid)) with
  | none => rfl
  | some b => rw [hf] at h; simp at h

/-- Overwriting one build leaves other build lookups unchanged. -/
theorem buildNvr_applyBuildWrite_other {st : GraphState} {bid j : String} (nvr : JVal)
    (h : j ≠ bid) : buildNvr (applyBuildWrite bid nvr st) j = buildNvr st j := by
  unfold buildNvr applyBuildWrite
  rw [find?_map_of_pres _ _ (fun b => by rw [buildWriteFun_id])]
  cases hf : st.builds.find? (fun b => decide (b.id_ = j)) with
  | none => rfl
  | some b =>
    have hb : b.id_ = j := by simpa using List.find?_some hf
    have : ¬ b.id_ = bid := by rw [hb]; exact h
    simp [Option.map, if_neg this]

@[simp] theorem add_label_ids (bid : String) (st : GraphState) :
    (add_label bid st).builds.map BuildNode.id_ = st.builds.map BuildNode.id_ := by
  unfold add_label
  simp only [List.map_map]
  congr 1
  funext b
  exact addLabelFun_id bid b

/-- Adding a label leaves every build attribute lookup unchanged. -/
theorem buildNvr_add_label (bid j : String) (st : GraphState) :
    buildNvr (add_label bid st) j = buildNvr st j := by
  unfold buildNvr add_label
  rw [find?_map_of_pres _ _ (fun b => by rw [addLabelFun_id])]
  cases hf : st.builds.find? (fun b => decide (b.id_ = j)) with
  | none => rfl
  | some b =>
    simp only [Option.map]
    rw [addLabelFun_nvr]

/-- The typed build upsert, update branch: the identity exists under the
container label, so the attributes are overwritten in place. -/
theorem ckb_cou_update {st : GraphState} {bid : String} {b : BuildNode} (nvr : JVal)
    (hf : st.builds.find? (fun b => decide (b.id_ = bid)) = some b)
    (hc : containerLabel ∈ b.labels) :
    ContainerKojiBuild.create_or_update bid nvr st = .ok (applyBuildWrite bid nvr st) := by
  unfold ContainerKojiBuild.create_or_update applyBuildWrite
  rw [hf]
  dsimp only
  rw [if_pos hc]

/-- The typed build upsert, conflict branch: the identity exists under an
incompatible label set, so the store raises. -/
theorem ckb_cou_conflict {st : GraphState} {bid : String} {b : BuildNode} (nvr : JVal)
    (hf : st.builds.find? (fun b => decide (b.id_ = bid)) = some b)
    (hc : containerLabel ∉ b.labels) :
    ContainerKojiBuild.create_or_update bid nvr st = .error .constraintViolation := by
  unfold ContainerKojiBuild.create_or_update
  rw [hf]
  dsimp only
  rw [if_neg hc]

/-- The typed build upsert, create branch: the identity is free, so the node
is created with both labels. -/
theorem ckb_cou_create {st : GraphState} {bid : String} (nvr : JVal)
    (hf : st.builds.find? (fun b => decide (b.id_ = bid)) = none) :
    ContainerKojiBuild.create_or_update bid nvr st =
      .ok { st with builds := st.builds ++ [⟨bid, nvr, [kojiLabel, containerLabel]⟩] } := by
  unfold ContainerKojiBuild.create_or_update
  rw [hf]

/-- The reconciling upsert on an existing container-labelled node takes the
plain update path in one attempt. -/
theorem upsert_update {st : GraphState} {bid : String} {b : BuildNode} (nvr : JVal)
    (hf : st.builds.find? (fun b => decide (b.id_ = bid)) = some b)
    (hc : containerLabel ∈ b.labels) :
    upsertContainerBuild bid nvr st = .ok (applyBuildWrite bid nvr st, 1) := by
  unfold upsertContainerBuild
  rw [ckb_cou_update nvr hf hc]

/-- The reconciling upsert on a free identity takes the create path in one
attempt. -/
theorem upsert_create {st : GraphState} {bid : String} (nvr : JVal)
    (hf : st.builds.find? (fun b => decide (b.id_ = bid)) = none) :
    upsertContainerBuild bid nvr st =
      .ok ({ st with builds := st.builds ++ [⟨bid, nvr, [kojiLabel, containerLabel]⟩] }, 1) := by
  unfold upsertContainerBuild
  rw [ckb_cou_create nvr hf]

/-- The event upsert on a present identity is the attribute overwrite. -/
theorem cou_of_present {st : GraphState} {i : JVal} (p : EventProps)
    (h : st.events.any (fun n => decide (n.id_ = i)) = true) :
    FreshmakerEvent.create_or_update i p st = applyEventWrite i p st := by
  unfold FreshmakerEvent.create_or_update applyEventWrite
  rw [if_pos h]

/-- The event upsert on an absent identity appends the node. -/
theorem cou_of_absent {st : GraphState} {i : JVal} (p : EventProps)
    (h : ¬ st.events.any (fun n => decide (n.id_ = i)) = true) :
    FreshmakerEvent.create_or_update i p st =
      { st with events := st.events ++ [⟨i, p⟩] } := by
  unfold FreshmakerEvent.create_or_update
  rw [if_neg h]

/-- After the event upsert, the node with that identity carries exactly the
given attributes. -/
theorem nodeProps_cou_self (st : GraphState) (i : JVal) (p : EventProps) :
    nodeProps (FreshmakerEvent.create_or_update i p st) i = some p := by
  by_cases h : st.events.any (fun n => decide (n.id_ = i)) = true
  · rw [cou_of_present p h]
    apply nodeProps_applyEventWrite_self
    unfold nodeProps
    rcases List.any_eq_true.mp h with ⟨n, hn, hni⟩
    cases hf : st.events.find? (fun n => decide (n.id_ = i)) with
    | none =>
      rw [List.find?_eq_none] at hf
      exact absurd hni (hf n hn)
    | some m => simp
  · rw [cou_of_absent p h]
    unfold nodeProps
    simp only [List.find?_append]
    have hnone : st.events.find? (fun n => decide (n.id_ = i)) = none := by
      rw [List.find?_eq_none]
      intro n hn hni
      exact h (List.any_eq_true.mpr ⟨n, hn, hni⟩)
    rw [hnone]
    simp [List.find?]

/-- The event upsert leaves other event lookups unchanged. -/
theorem nodeProps_cou_other (st : GraphState) {i j : JVal} (p : EventProps) (h : j ≠ i) :
    nodeProps (FreshmakerEvent.create_or_update i p st) j = nodeProps st j := by
  by_cases hp : st.events.any (fun n => decide (n.id_ = i)) = true
  · rw [cou_of_present p hp]
    exact nodeProps_applyEventWrite_other p h
  · rw [cou_of_absent p hp]
    unfold nodeProps
    simp only [List.find?_append]
    have : ([(⟨i, p⟩ : EventNode)].find? (fun n => decide (n.id_ = j))) = none := by
      simp [List.find?, Ne.symm h]
    rw [this]
    simp

/-- The advisory upsert puts the identity in the store. -/
theorem goc_mem (k : Int) (st : GraphState) : k ∈ (Advisory.get_or_create k st).advisories := by
  unfold Advisory.get_or_create
  split
  · assumption
  · simp

/-- The advisory upsert keeps every present identity. -/
theorem goc_mem_of_mem {st : GraphState} {j : Int} (k : Int) (h : j ∈ st.advisories) :
    j ∈ (Advisory.get_or_create k st).advisories := by
  unfold Advisory.get_or_create
  split
  · exact h
  · simp [h]

/-- The advisory upsert on a present identity is the identity. -/
theorem goc_of_mem {st : GraphState} {k : Int} (h : k ∈ st.advisories) :
    Advisory.get_or_create k st = st := by
  unfold Advisory.get_or_create
  rw [if_pos h]

/-- After the conditional connect, the event has some triggered_by edge. -/
theorem cc_exists (eid : JVal) (k : Int) (st : GraphState) :
    ∃ a, (eid, a) ∈ (conditional_connect eid k st).triggered_by := by
  unfold conditional_connect
  split
  · rename_i h
    rcases List.any_eq_true.mp h with ⟨pr, hpr, he⟩
    have he' : pr.1 = eid := by simpa using he
    exact ⟨pr.2, by rw [← he']; simpa using hpr⟩
  · exact ⟨k, by simp⟩

/-- The conditional connect on an already connected event is the identity. -/
theorem cc_of_connected {st : GraphState} {eid : JVal} (k : Int)
    (h : ∃ a, (eid, a) ∈ st.triggered_by) : conditional_connect eid k st = st := by
  unfold conditional_connect
  rcases h with ⟨a, ha⟩
  rw [if_pos]
  exact List.any_eq_true.mpr ⟨(eid, a), ha, by simp⟩

/-- The conditional connect keeps every present edge. -/
theorem cc_mem_of_mem {st : GraphState} {pr : JVal × Int} (eid : JVal) (k : Int)
    (h : pr ∈ st.triggered_by) : pr ∈ (conditional_connect eid k st).triggered_by := by
  unfold conditional_connect
  split
  · exact h
  · simp [h]

/-- After the triggered_builds connect, the edge is present. -/
theorem ctb_mem (eid : JVal) (bid : String) (st : GraphState) :
    (eid, bid) ∈ (connect_triggered_builds eid bid st).triggered_builds := by
  unfold connect_triggered_builds
  split
  · assumption
  · simp

/-- The triggered_builds connect keeps every present edge. -/
theorem ctb_mem_of_mem {st : GraphState} {pr : JVal × String} (eid : JVal) (bid : String)
    (h : pr ∈ st.triggered_builds) : pr ∈ (connect_triggered_builds eid bid st).triggered_builds := by
  unfold connect_triggered_builds
  split
  · exact h
  · simp [h]

/-- The triggered_builds connect on a present edge is the identity. -/
theorem ctb_of_mem {st : GraphState} {eid : JVal} {bid : String}
    (h : (eid, bid) ∈ st.triggered_builds) : connect_triggered_builds eid bid st = st := by
  unfold connect_triggered_builds
  rw [if_pos h]

/-- The per-build loop body, characterized by the derived views: it raises
bdErr exactly on bdFatal entries, is the identity on entries resolving to no
build id, and otherwise performs the reconciling upsert followed by the edge
connect. -/
theorem processBuild_spec (env : Env) (eid : JVal) (bd : BuildDict) (st : GraphState) :
    processBuild env eid bd st =
      if bdFatal env bd then .error (bdErr bd)
      else
        match resolvedId env bd with
        | none => .ok st
        | some bid =>
          (upsertContainerBuild bid bd.original_nvr st).map
            (fun pr => connect_triggered_builds eid bid pr.1) := by
  unfold processBuild bdFatal bdErr resolvedId
  cases hT : pyTruthy bd.build_id
  · simp
  · cases hI : pyInt bd.build_id
    case error e => simp [hI]
    case ok t =>
      by_cases hN : t < 0
      · simp [hI, hN]
      · cases hG : get_koji_task_result env t
        · simp [hI, hN, hG]
        · rename_i v
          cases v
          · simp [hI, hN, hG]
          · rename_i doc
            cases doc
            · simp [hI, hN, hG]
            · rename_i found
              match found with
              | none => simp [hI, hN, hG]
              | some none => simp [hI, hN, hG]
              | some (some s) =>
                by_cases hS : s = ""
                · simp [hI, hN, hG, hS]
                · simp only [hI, hN, hG, hS]
                  cases hU : upsertContainerBuild s bd.original_nvr st with
                  | error e => simp [hU, Except.map]
                  | ok pr =>
                    obtain ⟨st₁, c⟩ := pr
                    simp [hU, Except.map]

/-- The per-build loop body leaves events, advisories and triggered_by
untouched. -/
theorem processBuild_frame {env : Env} {eid : JVal} {bd : BuildDict} {st st' : GraphState}
    (h : processBuild env eid bd st = .ok st') :
    st'.events = st.events ∧ st'.advisories = st.advisories ∧
    st'.triggered_by = st.triggered_by := by
  rw [processBuild_spec] at h
  split at h
  · cases h
  · split at h
    · cases h; exact ⟨rfl, rfl, rfl⟩
    · rename_i bid hR
      cases hU : upsertContainerBuild bid bd.original_nvr st with
      | error e => rw [hU] at h; cases h
      | ok pr =>
        obtain ⟨st₁, c⟩ := pr
        rw [hU] at h
        simp only [Except.map] at h
        cases h
        have hf := upsert_frame hU
        simp [hf.1, hf.2.1, hf.2.2.1]

/-- The per-build loop leaves events, advisories and triggered_by
untouched. -/
theorem processBuilds_frame {env : Env} {eid : JVal} :
    ∀ {bds : List BuildDict} {st st' : GraphState},
    processBuilds env eid bds st = .ok st' →
    st'.events = st.events ∧ st'.advisories = st.advisories ∧
    st'.triggered_by = st.triggered_by
  | [], st, st', h => by cases h; exact ⟨rfl, rfl, rfl⟩
  | bd :: rest, st, st', h => by
    unfold processBuilds at h
    split at h
    · cases h
    · rename_i st₁ h₁
      have h₂ := processBuilds_frame h
      have h₃ := processBuild_frame h₁
      exact ⟨h₂.1.trans h₃.1, h₂.2.1.trans h₃.2.1, h₂.2.2.trans h₃.2.2⟩

/-! ## Monotone growth
The pipeline never deletes: node identities, container labels, advisory
identities and edges only accumulate. -/

theorem Mono.rfl (s : GraphState) : Mono s s :=
  ⟨fun _ h => h, fun _ h => h, fun _ h => h, fun _ h => h, fun _ h => h⟩

theorem Mono.comp {s₁ s₂ s₃ : GraphState} (h₁ : Mono s₁ s₂) (h₂ : Mono s₂ s₃) :
    Mono s₁ s₃ :=
  ⟨fun i h => h₂.1 i (h₁.1 i h),
   fun k h => h₂.2.1 k (h₁.2.1 k h),
   fun i h => h₂.2.2.1 i (h₁.2.2.1 i h),
   fun b h => h₂.2.2.2.1 b (h₁.2.2.2.1 b h),
   fun p h => h₂.2.2.2.2 p (h₁.2.2.2.2 p h)⟩

/-- Mapping the events with an identity-preserving function keeps identity
presence. -/
theorem events_presence_map {f : EventNode → EventNode} (hid : ∀ n, (f n).id_ = n.id_)
    {l : List EventNode} {i : JVal} (h : ∃ n ∈ l, n.id_ = i) :
    ∃ n ∈ l.map f, n.id_ = i := by
  rcases h with ⟨n, hn, hi⟩
  exact ⟨f n, List.mem_map_of_mem f hn, by rw [hid]; exact hi⟩

/-- Mapping the builds with a function preserving identity and the container
label keeps labelled presence. -/
theorem builds_presence_map {f : BuildNode → BuildNode} (hid : ∀ b, (f b).id_ = b.id_)
    (hlb : ∀ b, containerLabel ∈ b.labels → containerLabel ∈ (f b).labels)
    {l : List BuildNode} {bid : String}
    (h : ∃ b ∈ l, b.id_ = bid ∧ containerLabel ∈ b.labels) :
    ∃ b ∈ l.map f, b.id_ = bid ∧ containerLabel ∈ b.labels := by
  rcases h with ⟨b, hb, hi, hc⟩
  exact ⟨f b, List.mem_map_of_mem f hb, by rw [hid]; exact hi, hlb b hc⟩

/-- The event upsert only grows the state. -/
theorem cou_mono (i : JVal) (p : EventProps) (st : GraphState) :
    Mono st (FreshmakerEvent.create_or_update i p st) := by
  refine ⟨?_, ?_, ?_, ?_, ?_⟩
  · intro j h
    unfold FreshmakerEvent.create_or_update
    split
    · exact events_presence_map (eventWriteFun_id i p) h
    · rcases h with ⟨n, hn, hi⟩
      exact ⟨n, List.mem_append_left _ hn, hi⟩
  · intro k h
    rw [cou_advisories]
    exact h
  · intro j h
    rw [cou_triggered_by]
    exact h
  · intro b h
    rw [cou_builds]
    exact h
  · intro pr h
    rw [cou_triggered_builds]
    exact h

/-- The advisory upsert only grows the state. -/
theorem goc_mono (k : Int) (st : GraphState) : Mono st (Advisory.get_or_create k st) := by
  refine ⟨?_, ?_, ?_, ?_, ?_⟩
  · intro j h
    rw [goc_events]
    exact h
  · intro j h
    exact goc_mem_of_mem k h
  · intro j h
    rw [goc_triggered_by]
    exact h
  · intro b h
    rw [goc_builds]
    exact h
  · intro pr h
    rw [goc_triggered_builds]
    exact h

/-- The conditional connect only grows the state. -/
theorem cc_mono (eid : JVal) (k : Int) (st : GraphState) :
    Mono st (conditional_connect eid k st) := by
  refine ⟨?_, ?_, ?_, ?_, ?_⟩
  · intro j h
    rw [cc_events]
    exact h
  · intro j h
    rw [cc_advisories]
    exact h
  · intro j h
    rcases h with ⟨a, ha⟩
    exact ⟨a, cc_mem_of_mem eid k ha⟩
  · intro b h
    rw [cc_builds]
    exact h
  · intro pr h
    rw [cc_triggered_builds]
    exact h

/-- The triggered_builds connect only grows the state. -/
theorem ctb_mono (eid : JVal) (bid : String) (st : GraphState) :
    Mono st (connect_triggered_builds eid bid st) := by
  refine ⟨?_, ?_, ?_, ?_, ?_⟩
  · intro j h
    rw [ctb_events]
    exact h
  · intro j h
    rw [ctb_advisories]
    exact h
  · intro j h
    rw [ctb_triggered_by]
    exact h
  · intro b h
    rw [ctb_builds]
    exact h
  · intro pr h
    exact ctb_mem_of_mem eid bid h

/-- The typed build upsert only grows the state. -/
theorem ckb_cou_mono {bid : String} {nvr : JVal} {st st' : GraphState}
    (h : ContainerKojiBuild.create_or_update bid nvr st = .ok st') : Mono st st' := by
  have hf := ckb_cou_frame h
  refine ⟨?_, ?_, ?_, ?_, ?_⟩
  · intro j hj
    rw [hf.1]
    exact hj
  · intro j hj
    rw [hf.2.1]
    exact hj
  · intro j hj
    rw [hf.2.2.1]
    exact hj
  · intro j hj
    unfold ContainerKojiBuild.create_or_update at h
    split at h
    · split at h
      · cases h
        exact builds_presence_map (buildWriteFun_id bid nvr)
          (fun b hb => by rw [show ((if b.id_ = bid then { b with original_nvr := nvr }
            else b)).labels = b.labels from by split <;> rfl]; exact hb) hj
      · cases h
    · cases h
      rcases hj with ⟨b, hb, hi, hc⟩
      exact ⟨b, List.mem_append_left _ hb, hi, hc⟩
  · intro pr hj
    rw [hf.2.2.2]
    exact hj

/-- Adding the container label only grows the state. -/
theorem add_label_mono (bid : String) (st : GraphState) : Mono st (add_label bid st) := by
  refine ⟨?_, ?_, ?_, ?_, ?_⟩
  · intro j hj
    rw [al_events]
    exact hj
  · intro j hj
    rw [al_advisories]
    exact hj
  · intro j hj
    rw [al_triggered_by]
    exact hj
  · intro j hj
    unfold add_label
    exact builds_presence_map (addLabelFun_id bid)
      (fun b hb => by
        split
        · simp [hb]
        · exact hb) hj
  · intro pr hj
    rw [al_triggered_builds]
    exact hj

/-- The reconciling upsert only grows the state. -/
theorem upsert_mono {bid : String} {nvr : JVal} {st st' : GraphState} {c : Nat}
    (h : upsertContainerBuild bid nvr st = .ok (st', c)) : Mono st st' := by
  unfold upsertContainerBuild at h
  split at h
  · rename_i st₁ h₁
    cases h
    exact ckb_cou_mono h₁
  · rename_i h₁
    split at h
    · cases h
    · split at h
      · rename_i st₁ h₂
        cases h
        exact (add_label_mono bid st).comp (ckb_cou_mono h₂)
      · cases h
  · cases h

/-- The per-build loop body only grows the state. -/
theorem processBuild_mono {env : Env} {eid : JVal} {bd : BuildDict} {st st' : GraphState}
    (h : processBuild env eid bd st = .ok st') : Mono st st' := by
  rw [processBuild_spec] at h
  split at h
  · cases h
  · split at h
    · cases h; exact Mono.rfl st
    · rename_i bid hR
      cases hU : upsertContainerBuild bid bd.original_nvr st with
      | error e => rw [hU] at h; cases h
      | ok pr =>
        obtain ⟨st₁, c⟩ := pr
        rw [hU] at h
        simp only [Except.map] at h
        cases h
        exact (upsert_mono hU).comp (ctb_mono eid bid st₁)

/-- The per-build loop only grows the state. -/
theorem processBuilds_mono {env : Env} {eid : JVal} :
    ∀ {bds : List BuildDict} {st st' : GraphState},
    processBuilds env eid bds st = .ok st' → Mono st st'
  | [], st, st', h => by cases h; exact Mono.rfl _
  | bd :: rest, st, st', h => by
    unfold processBuilds at h
    split at h
    · cases h
    · rename_i st₁ h₁
      exact (processBuild_mono h₁).comp (processBuilds_mono h)

/-- The per-event loop body only grows the state. -/
theorem processEvent_mono {env : Env} {e : FmEvent} {st st' : GraphState}
    (h : processEvent env e st = .ok st') : Mono st st' := by
  unfold processEvent at h
  split at h
  · cases h; exact Mono.rfl _
  · cases h
  · rename_i k hk
    refine ((cou_mono e.id_ (mkProps e) st).comp ?_)
    refine (goc_mono k _).comp ?_
    refine (cc_mono e.id_ k _).comp ?_
    exact processBuilds_mono h

/-- The per-event loop only grows the state. -/
theorem processEvents_mono {env : Env} :
    ∀ {l : List FmEvent} {st st' : GraphState},
    processEvents env l st = .ok st' → Mono st st'
  | [], st, st', h => by cases h; exact Mono.rfl _
  | e :: rest, st, st', h => by
    unfold processEvents at h
    split at h
    · cases h
    · rename_i st₁ h₁
      exact (processEvent_mono h₁).comp (processEvents_mono h)

/-- Coverage is carried along monotone growth. -/
theorem covers_mono {env : Env} {st st' : GraphState} {e : FmEvent}
    (hm : Mono st st') (hc : CoversEvent env st e) : CoversEvent env st' e := by
  intro k hk
  obtain ⟨h1, h2, h3, h4⟩ := hc k hk
  refine ⟨hm.1 _ h1, hm.2.1 _ h2, hm.2.2.1 _ h3, ?_⟩
  intro bid hbd
  obtain ⟨hb, he⟩ := h4 bid hbd
  exact ⟨hm.2.2.2.1 _ hb, hm.2.2.2.2 _ he⟩

/-- A successful event lookup witnesses the presence of the node. -/
theorem nodeProps_some_presence {st : GraphState} {i : JVal} {p : EventProps}
    (h : nodeProps st i = some p) : ∃ n ∈ st.events, n.id_ = i := by
  unfold nodeProps at h
  cases hf : st.events.find? (fun n => decide (n.id_ = i)) with
  | none => rw [hf] at h; cases h
  | some n =>
    exact ⟨n, List.mem_of_find?_eq_some hf, by simpa using List.find?_some hf⟩

/-- A successful build lookup witnesses the presence of the node. -/
theorem buildNvr_some_presence {st : GraphState} {bid : String} {v : JVal}
    (h : buildNvr st bid = some v) : ∃ b ∈ st.builds, b.id_ = bid := by
  unfold buildNvr at h
  cases hf : st.builds.find? (fun b => decide (b.id_ = bid)) with
  | none => rw [hf] at h; cases h
  | some b =>
    exact ⟨b, List.mem_of_find?_eq_some hf, by simpa using List.find?_some hf⟩

/-- A successful typed build upsert leaves a container-labelled node with the
identity in the store. -/
theorem ckb_cou_covers {bid : String} {nvr : JVal} {st st' : GraphState}
    (h : ContainerKojiBuild.create_or_update bid nvr st = .ok st') :
    ∃ b ∈ st'.builds, b.id_ = bid ∧ containerLabel ∈ b.labels := by
  unfold ContainerKojiBuild.create_or_update at h
  split at h
  · rename_i b hf
    split at h
    · rename_i hc
      cases h
      have hb : b.id_ = bid := by simpa using List.find?_some hf
      refine ⟨if b.id_ = bid then { b with original_nvr := nvr } else b,
        List.mem_map_of_mem _ (List.mem_of_find?_eq_some hf), ?_, ?_⟩
      · rw [buildWriteFun_id]
        exact hb
      · rw [if_pos hb]
        exact hc
    · cases h
  · cases h
    exact ⟨⟨bid, nvr, [kojiLabel, containerLabel]⟩, List.mem_append_right _ (by simp),
      rfl, by simp⟩

/-- A successful reconciling upsert leaves a container-labelled node with the
identity in the store. -/
theorem upsert_covers {bid : String} {nvr : JVal} {st st' : GraphState} {c : Nat}
    (h : upsertContainerBuild bid nvr st = .ok (st', c)) :
    ∃ b ∈ st'.builds, b.id_ = bid ∧ containerLabel ∈ b.labels := by
  unfold upsertContainerBuild at h
  split at h
  · rename_i st₁ h₁
    cases h
    exact ckb_cou_covers h₁
  · rename_i h₁
    split at h
    · cases h
    · split at h
      · rename_i st₁ h₂
        cases h
        exact ckb_cou_covers h₂
      · cases h
  · cases h

/-- A successful per-build step never sees a fatal entry. -/
theorem processBuild_ok_nofatal {env : Env} {eid : JVal} {bd : BuildDict}
    {st st' : GraphState} (h : processBuild env eid bd st = .ok st') :
    bdFatal env bd = false := by
  rw [processBuild_spec] at h
  cases hb : bdFatal env bd with
  | false => rfl
  | true => rw [hb] at h; simp at h

/-- A successful per-build loop never sees a fatal entry. -/
theorem processBuilds_ok_nofatal {env : Env} {eid : JVal} :
    ∀ {bds : List BuildDict} {st st' : GraphState},
    processBuilds env eid bds st = .ok st' → ∀ bd ∈ bds, bdFatal env bd = false
  | [], _, _, _ => by intro bd hbd; cases hbd
  | bd₀ :: rest, st, st', h => by
    intro bd hbd
    unfold processBuilds at h
    split at h
    · cases h
    · rename_i st₁ h₁
      rcases List.mem_cons.mp hbd with hbd | hbd
      · subst hbd
        exact processBuild_ok_nofatal h₁
      · exact processBuilds_ok_nofatal h bd hbd

/-- A successful per-build step on an entry resolving to a build id leaves
the labelled node and the edge in the store. -/
theorem processBuild_covers_self {env : Env} {eid : JVal} {bd : BuildDict} {bid : String}
    {st st' : GraphState} (hR : resolvedId env bd = some bid)
    (h : processBuild env eid bd st = .ok st') :
    (∃ b ∈ st'.builds, b.id_ = bid ∧ containerLabel ∈ b.labels) ∧
      (eid, bid) ∈ st'.triggered_builds := by
  rw [processBuild_spec] at h
  split at h
  · cases h
  · rw [hR] at h
    dsimp only at h
    cases hU : upsertContainerBuild bid bd.original_nvr st with
    | error e => rw [hU] at h; cases h
    | ok pr =>
      obtain ⟨st₁, c⟩ := pr
      rw [hU] at h
      simp only [Except.map] at h
      cases h
      constructor
      · rcases upsert_covers hU with ⟨b, hb, hi, hc⟩
        exact ⟨b, by rw [ctb_builds]; exact hb, hi, hc⟩
      · exact ctb_mem eid bid st₁

/-- After a successful per-build loop, every resolved build id of the list
has its labelled node and edge in the store. -/
theorem processBuilds_covers_self {env : Env} {eid : JVal} :
    ∀ {bds : List BuildDict} {st st' : GraphState},
    processBuilds env eid bds st = .ok st' →
    ∀ bid, (∃ bd ∈ bds, resolvedId env bd = some bid) →
      (∃ b ∈ st'.builds, b.id_ = bid ∧ containerLabel ∈ b.labels) ∧
        (eid, bid) ∈ st'.triggered_builds
  | [], _, _, _ => by
    intro bid hbd
    rcases hbd with ⟨bd, hbd, _⟩
    cases hbd
  | bd₀ :: rest, st, st', h => by
    intro bid hbd
    unfold processBuilds at h
    split at h
    · cases h
    · rename_i st₁ h₁
      rcases hbd with ⟨bd, hbd, hR⟩
      rcases List.mem_cons.mp hbd with hbd' | hbd'
      · subst hbd'
        have hc := processBuild_covers_self hR h₁
        have hm := processBuilds_mono h
        exact ⟨hm.2.2.2.1 _ hc.1, hm.2.2.2.2 _ hc.2⟩
      · exact processBuilds_covers_self h bid ⟨bd, hbd', hR⟩

/-- A successfully processed event is covered by the resulting state. -/
theorem processEvent_covers_self {env : Env} {e : FmEvent} {st st' : GraphState}
    (h : processEvent env e st = .ok st') : CoversEvent env st' e := by
  intro k hk
  unfold processEvent at h
  rw [hk] at h
  have hfr := processBuilds_frame h
  constructor
  · rw [hfr.1]
    simp only [cc_events, goc_events]
    exact nodeProps_some_presence (nodeProps_cou_self st e.id_ (mkProps e))
  constructor
  · rw [hfr.2.1]
    simp only [cc_advisories]
    exact goc_mem k _
  constructor
  · rw [hfr.2.2]
    exact cc_exists e.id_ k _
  · intro bid hbd
    exact processBuilds_covers_self h bid hbd

/-- In a list of distinct keys, searching for the key of a member finds that
member. -/
theorem find?_key_nodup {α κ : Type} [DecidableEq κ] (key : α → κ) :
    ∀ {l : List α}, (l.map key).Nodup → ∀ {b : α}, b ∈ l →
      l.find? (fun c => decide (key c = key b)) = some b
  | [], _, _, hb => by cases hb
  | c :: tl, hnd, b, hb => by
    rw [List.map_cons, List.nodup_cons] at hnd
    rcases List.mem_cons.mp hb with hbc | hbtl
    · subst hbc
      simp [List.find?]
    · have hne : key c ≠ key b := fun he => hnd.1 (he ▸ List.mem_map_of_mem key hbtl)
      rw [List.find?_cons_of_neg _ (by simpa using hne)]
      exact find?_key_nodup key hnd.2 hbtl

/-- A non-fatal entry resolving to no build id is skipped, leaving the state
unchanged. -/
theorem processBuild_skip {env : Env} {eid : JVal} {bd : BuildDict} {st : GraphState}
    (hnf : bdFatal env bd = false) (hR : resolvedId env bd = none) :
    processBuild env eid bd st = .ok st := by
  rw [processBuild_spec]
  simp [hnf, hR]

/-- Reprocessing a build entry whose resolved node and edge already exist
performs exactly the attribute overwrite. -/
theorem processBuild_covered {env : Env} {eid : JVal} {bd : BuildDict} {bid : String}
    {st : GraphState} (hnf : bdFatal env bd = false) (hR : resolvedId env bd = some bid)
    (hwf : (st.builds.map BuildNode.id_).Nodup)
    (hpres : ∃ b ∈ st.builds, b.id_ = bid ∧ containerLabel ∈ b.labels)
    (hedge : (eid, bid) ∈ st.triggered_builds) :
    processBuild env eid bd st = .ok (applyBuildWrite bid bd.original_nvr st) := by
  rw [processBuild_spec]
  simp only [hnf, hR, Bool.false_eq_true, if_false]
  rcases hpres with ⟨b, hb, hbid, hc⟩
  have hfind : st.builds.find? (fun c => decide (c.id_ = bid)) = some b := by
    subst hbid
    exact find?_key_nodup BuildNode.id_ hwf hb
  rw [upsert_update bd.original_nvr hfind hc]
  simp only [Except.map]
  rw [ctb_of_mem]
  rw [applyBuildWrite_triggered_builds]
  exact hedge

/-- The build write map preserves labels. -/
theorem buildWriteFun_labels (bid : String) (nvr : JVal) (b : BuildNode) :
    ((if b.id_ = bid then { b with original_nvr := nvr } else b)).labels = b.labels := by
  split <;> rfl

/-- Reprocessing a builds list whose resolved nodes and edges already exist
performs exactly the attribute overwrites. -/
theorem processBuilds_covered {env : Env} {eid : JVal} :
    ∀ {bds : List BuildDict} {st : GraphState},
    (∀ bd ∈ bds, bdFatal env bd = false) →
    (st.builds.map BuildNode.id_).Nodup →
    (∀ bid, (∃ bd ∈ bds, resolvedId env bd = some bid) →
      (∃ b ∈ st.builds, b.id_ = bid ∧ containerLabel ∈ b.labels) ∧
        (eid, bid) ∈ st.triggered_builds) →
    processBuilds env eid bds st = .ok (applyBuildWrites env bds st)
  | [], st, _, _, _ => rfl
  | bd :: rest, st, hnf, hwf, hcov => by
    have hnf₀ := hnf bd (List.mem_cons_self bd rest)
    have hnfr : ∀ b ∈ rest, bdFatal env b = false :=
      fun b hb => hnf b (List.mem_cons_of_mem bd hb)
    cases hR : resolvedId env bd with
    | none =>
      unfold processBuilds
      rw [processBuild_skip hnf₀ hR]
      unfold applyBuildWrites
      rw [hR]
      exact processBuilds_covered hnfr hwf
        (fun bid ⟨b, hb, hRb⟩ => hcov bid ⟨b, List.mem_cons_of_mem bd hb, hRb⟩)
    | some bid =>
      have hcb := hcov bid ⟨bd, List.mem_cons_self bd rest, hR⟩
      unfold processBuilds
      rw [processBuild_covered hnf₀ hR hwf hcb.1 hcb.2]
      unfold applyBuildWrites
      rw [hR]
      refine processBuilds_covered hnfr ?_ ?_
      · rw [applyBuildWrite_ids]
        exact hwf
      · intro bid' hbid'
        have hc' := hcov bid' (by
          rcases hbid' with ⟨b, hb, hRb⟩
          exact ⟨b, List.mem_cons_of_mem bd hb, hRb⟩)
        constructor
        · exact builds_presence_map (buildWriteFun_id bid bd.original_nvr)
            (fun b hb => by rw [buildWriteFun_labels]; exact hb) hc'.1
        · rw [applyBuildWrite_triggered_builds]
          exact hc'.2

/-- Reprocessing a covered event performs exactly the attribute overwrites:
every upsert takes its update path and every connect is a no-op.  The first
hypothesis, a successful processing of the same event from any state, rules
out the state-independent fatal outcomes (an uncaught TypeError on the
search_key, an uncaught ValueError on a build id, a malformed task result
document). -/
theorem processEvent_covered {env : Env} {e : FmEvent} {st a a' : GraphState}
    (hok : processEvent env e a = .ok a')
    (hwf : (st.builds.map BuildNode.id_).Nodup)
    (hc : CoversEvent env st e) :
    processEvent env e st = .ok (applyWrites env e st) := by
  unfold processEvent at hok ⊢
  unfold applyWrites passes_filter
  cases hk : pyInt e.search_key with
  | error err =>
    rw [hk] at hok
    cases err <;> simp_all
  | ok k =>
    rw [hk] at hok
    obtain ⟨hev, hadv, hed, hbld⟩ := hc k hk
    have hany : st.events.any (fun n => decide (n.id_ = e.id_)) = true := by
      rcases hev with ⟨n, hn, hni⟩
      exact List.any_eq_true.mpr ⟨n, hn, by simpa using hni⟩
    have h₁ : FreshmakerEvent.create_or_update e.id_ (mkProps e) st =
        applyEventWrite e.id_ (mkProps e) st := cou_of_present (mkProps e) hany
    have h₂ : Advisory.get_or_create k (applyEventWrite e.id_ (mkProps e) st) =
        applyEventWrite e.id_ (mkProps e) st := by
      apply goc_of_mem
      rw [applyEventWrite_advisories]
      exact hadv
    have h₃ : conditional_connect e.id_ k (applyEventWrite e.id_ (mkProps e) st) =
        applyEventWrite e.id_ (mkProps e) st := by
      apply cc_of_connected
      rw [applyEventWrite_triggered_by]
      exact hed
    simp only [h₁, h₂, h₃, if_true]
    refine processBuilds_covered (processBuilds_ok_nofatal hok) ?_ ?_
    · rw [applyEventWrite_builds]
      exact hwf
    · intro bid hbid
      have hb := hbld bid hbid
      constructor
      · rw [applyEventWrite_builds]
        exact hb.1
      · rw [applyEventWrite_triggered_builds]
        exact hb.2

/-- The event upsert preserves identity uniqueness. -/
theorem cou_wf (i : JVal) (p : EventProps) {st : GraphState} (h : WF st) :
    WF (FreshmakerEvent.create_or_update i p st) := by
  constructor
  · by_cases hp : st.events.any (fun n => decide (n.id_ = i)) = true
    · rw [cou_of_present p hp, applyEventWrite_ids]
      exact h.1
    · rw [cou_of_absent p hp]
      show ((st.events ++ [(⟨i, p⟩ : EventNode)]).map EventNode.id_).Nodup
      rw [List.map_append, List.nodup_append]
      refine ⟨h.1, List.nodup_singleton i, ?_⟩
      intro a ha hai
      have hai' : a = i := by simpa using hai
      subst hai'
      rcases List.mem_map.mp ha with ⟨n, hn, hni⟩
      exact hp (List.any_eq_true.mpr ⟨n, hn, by simpa using hni⟩)
  · show ((FreshmakerEvent.create_or_update i p st).builds.map BuildNode.id_).Nodup
    rw [cou_builds]
    exact h.2

/-- The typed build upsert preserves identity uniqueness. -/
theorem ckb_cou_wf {bid : String} {nvr : JVal} {st st' : GraphState}
    (h : ContainerKojiBuild.create_or_update bid nvr st = .ok st') (hw : WF st) : WF st' := by
  have hfr := ckb_cou_frame h
  constructor
  · rw [hfr.1]
    exact hw.1
  · unfold ContainerKojiBuild.create_or_update at h
    split at h
    · rename_i b hf
      split at h
      · cases h
        show ((applyBuildWrite bid nvr st).builds.map BuildNode.id_).Nodup
        rw [applyBuildWrite_ids]
        exact hw.2
      · cases h
    · rename_i hf
      cases h
      show ((st.builds ++ [(⟨bid, nvr, [kojiLabel, containerLabel]⟩ : BuildNode)]).map BuildNode.id_).Nodup
      rw [List.map_append, List.nodup_append]
      refine ⟨hw.2, List.nodup_singleton bid, ?_⟩
      intro a ha hai
      have hai' : a = bid := by simpa using hai
      subst hai'
      rcases List.mem_map.mp ha with ⟨b, hb, hbi⟩
      rw [List.find?_eq_none] at hf
      exact hf b hb (by simpa using hbi)

/-- The reconciling upsert preserves identity uniqueness. -/
theorem upsert_wf {bid : String} {nvr : JVal} {st st' : GraphState} {c : Nat}
    (h : upsertContainerBuild bid nvr st = .ok (st', c)) (hw : WF st) : WF st' := by
  unfold upsertContainerBuild at h
  split at h
  · rename_i st₁ h₁
    cases h
    exact ckb_cou_wf h₁ hw
  · rename_i h₁
    split at h
    · cases h
    · split at h
      · rename_i st₁ h₂
        cases h
        refine ckb_cou_wf h₂ ?_
        refine ⟨?_, ?_⟩
        · rw [al_events]
          exact hw.1
        · rw [add_label_ids]
          exact hw.2
      · cases h
  · cases h

/-- The per-build loop body preserves identity uniqueness. -/
theorem processBuild_wf {env : Env} {eid : JVal} {bd : BuildDict} {st st' : GraphState}
    (h : processBuild env eid bd st = .ok st') (hw : WF st) : WF st' := by
  rw [processBuild_spec] at h
  split at h
  · cases h
  · split at h
    · cases h
      exact hw
    · rename_i bid hR
      cases hU : upsertContainerBuild bid bd.original_nvr st with
      | error e => rw [hU] at h; cases h
      | ok pr =>
        obtain ⟨st₁, c⟩ := pr
        rw [hU] at h
        simp only [Except.map] at h
        cases h
        have hw₁ := upsert_wf hU hw
        exact ⟨by rw [ctb_events]; exact hw₁.1, by rw [ctb_builds]; exact hw₁.2⟩

/-- The per-build loop preserves identity uniqueness. -/
theorem processBuilds_wf {env : Env} {eid : JVal} :
    ∀ {bds : List BuildDict} {st st' : GraphState},
    processBuilds env eid bds st = .ok st' → WF st → WF st'
  | [], _, _, h, hw => by cases h; exact hw
  | bd :: rest, st, st', h, hw => by
    unfold processBuilds at h
    split at h
    · cases h
    · rename_i st₁ h₁
      exact processBuilds_wf h (processBuild_wf h₁ hw)

/-- The per-event loop body preserves identity uniqueness. -/
theorem processEvent_wf {env : Env} {e : FmEvent} {st st' : GraphState}
    (h : processEvent env e st = .ok st') (hw : WF st) : WF st' := by
  unfold processEvent at h
  split at h
  · cases h
    exact hw
  · cases h
  · rename_i k hk
    refine processBuilds_wf h ?_
    refine ⟨?_, ?_⟩
    · rw [cc_events, goc_events]
      exact (cou_wf e.id_ (mkProps e) hw).1
    · rw [cc_builds, goc_builds, cou_builds]
      exact hw.2

/-- The per-event loop preserves identity uniqueness. -/
theorem processEvents_wf {env : Env} :
    ∀ {l : List FmEvent} {st st' : GraphState},
    processEvents env l st = .ok st' → WF st → WF st'
  | [], _, _, h, hw => by cases h; exact hw
  | e :: rest, st, st', h, hw => by
    unfold processEvents at h
    split at h
    · cases h
    · rename_i st₁ h₁
      exact processEvents_wf h (processEvent_wf h₁ hw)

theorem StructEq.refl (st : GraphState) : StructEq st st := ⟨rfl, rfl, rfl, rfl, rfl⟩

theorem StructEq.trans {x y z : GraphState} (h₁ : StructEq x y) (h₂ : StructEq y z) :
    StructEq x z :=
  ⟨h₁.1.trans h₂.1, h₁.2.1.trans h₂.2.1, h₁.2.2.1.trans h₂.2.2.1,
   h₁.2.2.2.1.trans h₂.2.2.2.1, h₁.2.2.2.2.trans h₂.2.2.2.2⟩

/-- An attribute overwrite of an event node preserves the structure. -/
theorem applyEventWrite_structEq (i : JVal) (p : EventProps) (st : GraphState) :
    StructEq (applyEventWrite i p st) st :=
  ⟨applyEventWrite_ids i p st, rfl, rfl, rfl, rfl⟩

/-- An attribute overwrite of a build node preserves the structure. -/
theorem applyBuildWrite_structEq (bid : String) (nvr : JVal) (st : GraphState) :
    StructEq (applyBuildWrite bid nvr st) st :=
  ⟨rfl, rfl, applyBuildWrite_keys bid nvr st, rfl, rfl⟩

/-- The overwrites of a builds list preserve the structure. -/
theorem applyBuildWrites_structEq (env : Env) :
    ∀ (bds : List BuildDict) (st : GraphState), StructEq (applyBuildWrites env bds st) st
  | [], st => StructEq.refl st
  | bd :: rest, st => by
    unfold applyBuildWrites
    cases hR : resolvedId env bd with
    | none => exact applyBuildWrites_structEq env rest st
    | some bid =>
      exact (applyBuildWrites_structEq env rest _).trans
        (applyBuildWrite_structEq bid bd.original_nvr st)

/-- The overwrites of a single event preserve the structure. -/
theorem applyWrites_structEq (env : Env) (e : FmEvent) (st : GraphState) :
    StructEq (applyWrites env e st) st := by
  unfold applyWrites
  split
  · exact (applyBuildWrites_structEq env e.builds _).trans
      (applyEventWrite_structEq e.id_ (mkProps e) st)
  · exact StructEq.refl st

/-- The overwrites of an event list preserve the structure. -/
theorem applyAll_structEq (env : Env) :
    ∀ (l : List FmEvent) (st : GraphState), StructEq (applyAll env l st) st
  | [], st => StructEq.refl st
  | e :: rest, st =>
    (applyAll_structEq env rest _).trans (applyWrites_structEq env e st)

/-- Coverage only looks at the structure. -/
theorem covers_structEq {env : Env} {y b : GraphState} {e : FmEvent}
    (hS : StructEq y b) (hc : CoversEvent env b e) : CoversEvent env y e := by
  intro k hk
  obtain ⟨h1, h2, h3, h4⟩ := hc k hk
  obtain ⟨hE, hA, hB, hT, hTB⟩ := hS
  refine ⟨?_, ?_, ?_, ?_⟩
  · rcases h1 with ⟨n, hn, hni⟩
    have : e.id_ ∈ y.events.map EventNode.id_ := by
      rw [hE]
      exact hni ▸ List.mem_map_of_mem EventNode.id_ hn
    rcases List.mem_map.mp this with ⟨m, hm, hmi⟩
    exact ⟨m, hm, hmi⟩
  · rw [hA]
    exact h2
  · rw [hT]
    exact h3
  · intro bid hbd
    obtain ⟨⟨b₀, hb₀, hbi, hbc⟩, he⟩ := h4 bid hbd
    constructor
    · have : (bid, b₀.labels) ∈ y.builds.map buildKey := by
        rw [hB]
        exact hbi ▸ List.mem_map_of_mem buildKey hb₀
      rcases List.mem_map.mp this with ⟨m, hm, hmk⟩
      refine ⟨m, hm, ?_, ?_⟩
      · exact congrArg Prod.fst hmk
      · have : m.labels = b₀.labels := congrArg Prod.snd hmk
        rw [this]
        exact hbc
    · rw [hTB]
      exact he

/-- Well-formedness only looks at the structure. -/
theorem wf_structEq {y b : GraphState} (hS : StructEq y b) (hw : WF b) : WF y := by
  obtain ⟨hE, _, hB, _, _⟩ := hS
  constructor
  · rw [hE]
    exact hw.1
  · have : y.builds.map BuildNode.id_ = b.builds.map BuildNode.id_ := by
      have h1 : y.builds.map BuildNode.id_ = (y.builds.map buildKey).map Prod.fst := by
        rw [List.map_map]; rfl
      have h2 : b.builds.map BuildNode.id_ = (b.builds.map buildKey).map Prod.fst := by
        rw [List.map_map]; rfl
      rw [h1, h2, hB]
    rw [this]
    exact hw.2

/-- Every event of a successfully processed list is covered by the final
state. -/
theorem processEvents_covers {env : Env} :
    ∀ {l : List FmEvent} {st st' : GraphState},
    processEvents env l st = .ok st' → ∀ e ∈ l, CoversEvent env st' e
  | [], _, _, _ => by intro e he; cases he
  | e₀ :: rest, st, st', h => by
    intro e he
    unfold processEvents at h
    split at h
    · cases h
    · rename_i st₁ h₁
      rcases List.mem_cons.mp he with he' | he'
      · subst he'
        exact covers_mono (processEvents_mono h) (processEvent_covers_self h₁)
      · exact processEvents_covers h e he'


/-- Replaying a successfully processed event list from any structurally
equal state performs exactly the attribute overwrites: nothing is created,
no edge is added, and the run succeeds. -/
theorem processEvents_replay {env : Env} :
    ∀ {l : List FmEvent} {a b : GraphState}, ∀ y : GraphState,
    processEvents env l a = .ok b → WF b → StructEq y b →
    (∀ e ∈ l, CoversEvent env b e) →
    processEvents env l y = .ok (applyAll env l y)
  | [], _, _, y, _, _, _, _ => rfl
  | e :: rest, a, b, y, h, hwb, hS, hcov => by
    unfold processEvents at h
    split at h
    · cases h
    · rename_i a₁ h₁
      have hce : CoversEvent env y e :=
        covers_structEq hS (hcov e (List.mem_cons_self e rest))
      have hwy : WF y := wf_structEq hS hwb
      have hstep := processEvent_covered h₁ hwy.2 hce
      unfold processEvents
      rw [hstep]
      show processEvents env rest (applyWrites env e y) = .ok (applyAll env (e :: rest) y)
      unfold applyAll
      exact processEvents_replay (applyWrites env e y) h hwb
        ((applyWrites_structEq env e y).trans hS)
        (fun e' he' => hcov e' (List.mem_cons_of_mem e he'))

/-- Event lookups only depend on the events component. -/
theorem nodeProps_congr {st st' : GraphState} (h : st'.events = st.events) (i : JVal) :
    nodeProps st' i = nodeProps st i := by
  unfold nodeProps
  rw [h]

/-- Build lookups only depend on the builds component. -/
theorem buildNvr_congr {st st' : GraphState} (h : st'.builds = st.builds) (bid : String) :
    buildNvr st' bid = buildNvr st bid := by
  unfold buildNvr
  rw [h]

/-- Appending a fresh build node makes its attribute visible. -/
theorem buildNvr_append_fresh {st : GraphState} {bid : String} (nvr : JVal) (lbs : List String)
    (hf : st.builds.find? (fun b => decide (b.id_ = bid)) = none) :
    buildNvr { st with builds := st.builds ++ [⟨bid, nvr, lbs⟩] } bid = some nvr := by
  unfold buildNvr
  show ((st.builds ++ [(⟨bid, nvr, lbs⟩ : BuildNode)]).find?
    (fun b => decide (b.id_ = bid))).map BuildNode.original_nvr = some nvr
  rw [List.find?_append, hf]
  simp [List.find?]

/-- Appending a build node with another identity leaves a lookup unchanged. -/
theorem buildNvr_append_other {st : GraphState} {bid bid' : String} (nvr : JVal)
    (lbs : List String) (hne : bid ≠ bid') :
    buildNvr { st with builds := st.builds ++ [⟨bid', nvr, lbs⟩] } bid = buildNvr st bid := by
  unfold buildNvr
  show ((st.builds ++ [(⟨bid', nvr, lbs⟩ : BuildNode)]).find?
    (fun b => decide (b.id_ = bid))).map BuildNode.original_nvr = _
  rw [List.find?_append]
  have : ([(⟨bid', nvr, lbs⟩ : BuildNode)].find? (fun b => decide (b.id_ = bid))) = none := by
    simp [List.find?, Ne.symm hne]
  rw [this]
  simp

/-- A successful typed build upsert sets the attribute of the identity. -/
theorem ckb_cou_sets {bid : String} {nvr : JVal} {st st' : GraphState}
    (h : ContainerKojiBuild.create_or_update bid nvr st = .ok st') :
    buildNvr st' bid = some nvr := by
  unfold ContainerKojiBuild.create_or_update at h
  split at h
  · rename_i b hf
    split at h
    · cases h
      apply buildNvr_applyBuildWrite_self
      unfold buildNvr
      rw [hf]
      simp
    · cases h
  · rename_i hf
    cases h
    exact buildNvr_append_fresh nvr _ hf

/-- A successful typed build upsert leaves other lookups unchanged. -/
theorem ckb_cou_preserves {bid bid' : String} {nvr : JVal} {st st' : GraphState}
    (h : ContainerKojiBuild.create_or_update bid' nvr st = .ok st') (hne : bid ≠ bid') :
    buildNvr st' bid = buildNvr st bid := by
  unfold ContainerKojiBuild.create_or_update at h
  split at h
  · rename_i b hf
    split at h
    · cases h
      exact buildNvr_applyBuildWrite_other nvr hne
    · cases h
  · rename_i hf
    cases h
    exact buildNvr_append_other nvr _ hne

/-- A successful reconciling upsert sets the attribute of the identity. -/
theorem upsert_sets {bid : String} {nvr : JVal} {st st' : GraphState} {c : Nat}
    (h : upsertContainerBuild bid nvr st = .ok (st', c)) : buildNvr st' bid = some nvr := by
  unfold upsertContainerBuild at h
  split at h
  · rename_i st₁ h₁
    cases h
    exact ckb_cou_sets h₁
  · rename_i h₁
    split at h
    · cases h
    · split at h
      · rename_i st₁ h₂
        cases h
        exact ckb_cou_sets h₂
      · cases h
  · cases h

/-- A successful reconciling upsert leaves other lookups unchanged. -/
theorem upsert_preserves {bid bid' : String} {nvr : JVal} {st st' : GraphState} {c : Nat}
    (h : upsertContainerBuild bid' nvr st = .ok (st', c)) (hne : bid ≠ bid') :
    buildNvr st' bid = buildNvr st bid := by
  unfold upsertContainerBuild at h
  split at h
  · rename_i st₁ h₁
    cases h
    exact ckb_cou_preserves h₁ hne
  · rename_i h₁
    split at h
    · cases h
    · split at h
      · rename_i st₁ h₂
        cases h
        exact (ckb_cou_preserves h₂ hne).trans (buildNvr_add_label bid' bid st)
      · cases h
  · cases h

/-- A successful per-build step on an entry resolving to an identity sets its
attribute. -/
theorem processBuild_sets {env : Env} {eid : JVal} {bd : BuildDict} {bid : String}
    {st st' : GraphState} (hR : resolvedId env bd = some bid)
    (h : processBuild env eid bd st = .ok st') :
    buildNvr st' bid = some bd.original_nvr := by
  rw [processBuild_spec] at h
  split at h
  · cases h
  · rw [hR] at h
    dsimp only at h
    cases hU : upsertContainerBuild bid bd.original_nvr st with
    | error e => rw [hU] at h; cases h
    | ok pr =>
      obtain ⟨st₁, c⟩ := pr
      rw [hU] at h
      simp only [Except.map] at h
      cases h
      rw [buildNvr_congr (ctb_builds eid bid st₁) bid]
      exact upsert_sets hU

/-- A successful per-build step leaves lookups it does not resolve to
unchanged. -/
theorem processBuild_preserves {env : Env} {eid : JVal} {bd : BuildDict} {bid : String}
    {st st' : GraphState} (hR : resolvedId env bd ≠ some bid)
    (h : processBuild env eid bd st = .ok st') :
    buildNvr st' bid = buildNvr st bid := by
  rw [processBuild_spec] at h
  split at h
  · cases h
  · split at h
    · cases h
      rfl
    · rename_i bid' hR'
      have hne : bid ≠ bid' := fun he => hR (he ▸ hR')
      cases hU : upsertContainerBuild bid' bd.original_nvr st with
      | error e => rw [hU] at h; cases h
      | ok pr =>
        obtain ⟨st₁, c⟩ := pr
        rw [hU] at h
        simp only [Except.map] at h
        cases h
        rw [buildNvr_congr (ctb_builds eid bid' st₁) bid]
        exact upsert_preserves hU hne

/-- If a builds list does not write an identity at all, neither does its
tail, nor its head. -/
theorem lastBWB_none_inv {env : Env} {bd : BuildDict} {rest : List BuildDict} {bid : String}
    (h : lastBuildWriteBuilds env (bd :: rest) bid = none) :
    lastBuildWriteBuilds env rest bid = none ∧ resolvedId env bd ≠ some bid := by
  unfold lastBuildWriteBuilds at h
  cases hr : lastBuildWriteBuilds env rest bid with
  | some v => rw [hr] at h; cases h
  | none =>
    rw [hr] at h
    refine ⟨rfl, ?_⟩
    intro hR
    rw [if_pos hR] at h
    cases h

/-- A successful per-build loop leaves unwritten identities unchanged. -/
theorem processBuilds_preserves {env : Env} {eid : JVal} :
    ∀ {bds : List BuildDict} {st st' : GraphState} {bid : String},
    lastBuildWriteBuilds env bds bid = none →
    processBuilds env eid bds st = .ok st' →
    buildNvr st' bid = buildNvr st bid
  | [], st, st', bid, _, h => by cases h; rfl
  | bd :: rest, st, st', bid, hlw, h => by
    obtain ⟨hr, hbd⟩ := lastBWB_none_inv hlw
    unfold processBuilds at h
    split at h
    · cases h
    · rename_i st₁ h₁
      exact (processBuilds_preserves hr h).trans (processBuild_preserves hbd h₁)

/-- A successful per-build loop realizes the last write of every written
identity. -/
theorem processBuilds_sets {env : Env} {eid : JVal} :
    ∀ {bds : List BuildDict} {st st' : GraphState} {bid : String} {v : JVal},
    lastBuildWriteBuilds env bds bid = some v →
    processBuilds env eid bds st = .ok st' →
    buildNvr st' bid = some v
  | [], _, _, _, _, hlw, _ => by cases hlw
  | bd :: rest, st, st', bid, v, hlw, h => by
    unfold processBuilds at h
    split at h
    · cases h
    · rename_i st₁ h₁
      unfold lastBuildWriteBuilds at hlw
      cases hr : lastBuildWriteBuilds env rest bid with
      | some v' =>
        rw [hr] at hlw
        cases hlw
        exact processBuilds_sets hr h
      | none =>
        rw [hr] at hlw
        by_cases hR : resolvedId env bd = some bid
        · rw [if_pos hR] at hlw
          cases hlw
          rw [processBuilds_preserves hr h]
          exact processBuild_sets hR h₁
        · rw [if_neg hR] at hlw
          cases hlw

/-- A successfully parsed search_key passes the filter. -/
theorem passes_of_ok {e : FmEvent} {k : Int} (hk : pyInt e.search_key = .ok k) :
    passes_filter e = true := by
  unfold passes_filter
  rw [hk]

/-- A successfully processed event carries its attributes on its node. -/
theorem processEvent_sets_event {env : Env} {e : FmEvent} {a a' : GraphState}
    (h : processEvent env e a = .ok a') (hp : passes_filter e = true) :
    nodeProps a' e.id_ = some (mkProps e) := by
  unfold passes_filter at hp
  cases hk : pyInt e.search_key with
  | error err => rw [hk] at hp; cases hp
  | ok k =>
    unfold processEvent at h
    rw [hk] at h
    rw [nodeProps_congr (processBuilds_frame h).1 e.id_,
      nodeProps_congr (cc_events e.id_ k _) e.id_, nodeProps_congr (goc_events k _) e.id_]
    exact nodeProps_cou_self a e.id_ (mkProps e)

/-- Processing an event leaves other event lookups unchanged. -/
theorem processEvent_preserves_event {env : Env} {e : FmEvent} {a a' : GraphState} {i : JVal}
    (h : processEvent env e a = .ok a') (hni : ¬(passes_filter e = true ∧ e.id_ = i)) :
    nodeProps a' i = nodeProps a i := by
  unfold processEvent at h
  cases hk : pyInt e.search_key with
  | error err =>
    rw [hk] at h
    cases err
    case valueError => cases h; rfl
    all_goals cases h
  | ok k =>
    rw [hk] at h
    have hne : i ≠ e.id_ := by
      intro he
      exact hni ⟨passes_of_ok hk, he.symm⟩
    rw [nodeProps_congr (processBuilds_frame h).1 i,
      nodeProps_congr (cc_events e.id_ k _) i, nodeProps_congr (goc_events k _) i]
    exact nodeProps_cou_other a (mkProps e) hne

/-- A successfully processed event realizes its last build write. -/
theorem processEvent_sets_build {env : Env} {e : FmEvent} {a a' : GraphState}
    {bid : String} {v : JVal} (hlw : lastBuildWriteEvent env e bid = some v)
    (h : processEvent env e a = .ok a') : buildNvr a' bid = some v := by
  unfold lastBuildWriteEvent at hlw
  cases hp : passes_filter e with
  | false => rw [hp] at hlw; cases hlw
  | true =>
    rw [hp] at hlw
    simp only [if_true] at hlw
    unfold passes_filter at hp
    cases hk : pyInt e.search_key with
    | error err => rw [hk] at hp; cases hp
    | ok k =>
      unfold processEvent at h
      rw [hk] at h
      exact processBuilds_sets hlw h

/-- Processing an event leaves build lookups it does not write unchanged. -/
theorem processEvent_preserves_build {env : Env} {e : FmEvent} {a a' : GraphState}
    {bid : String} (hlw : lastBuildWriteEvent env e bid = none)
    (h : processEvent env e a = .ok a') : buildNvr a' bid = buildNvr a bid := by
  unfold processEvent at h
  cases hk : pyInt e.search_key with
  | error err =>
    rw [hk] at h
    cases err
    case valueError => cases h; rfl
    all_goals cases h
  | ok k =>
    rw [hk] at h
    unfold lastBuildWriteEvent at hlw
    rw [passes_of_ok hk] at hlw
    simp only [if_true] at hlw
    rw [processBuilds_preserves hlw h]
    rw [buildNvr_congr (cc_builds e.id_ k _) bid, buildNvr_congr (goc_builds k _) bid,
      buildNvr_congr (cou_builds e.id_ (mkProps e) a) bid]

/-- If an event list does not write an event identity, neither does its tail
nor its head. -/
theorem lastEW_none_inv {e : FmEvent} {rest : List FmEvent} {i : JVal}
    (h : lastEventWrite (e :: rest) i = none) :
    lastEventWrite rest i = none ∧ ¬(passes_filter e = true ∧ e.id_ = i) := by
  unfold lastEventWrite at h
  cases hr : lastEventWrite rest i with
  | some p => rw [hr] at h; cases h
  | none =>
    rw [hr] at h
    refine ⟨rfl, ?_⟩
    rintro ⟨hp, hi⟩
    rw [if_pos (by rw [hp, hi]; simp)] at h
    cases h

/-- A successful per-event loop leaves unwritten event identities
unchanged. -/
theorem processEvents_preserves_event {env : Env} :
    ∀ {l : List FmEvent} {a b : GraphState} {i : JVal},
    lastEventWrite l i = none → processEvents env l a = .ok b →
    nodeProps b i = nodeProps a i
  | [], a, b, i, _, h => by cases h; rfl
  | e :: rest, a, b, i, hlw, h => by
    obtain ⟨hr, hni⟩ := lastEW_none_inv hlw
    unfold processEvents at h
    split at h
    · cases h
    · rename_i a₁ h₁
      exact (processEvents_preserves_event hr h).trans (processEvent_preserves_event h₁ hni)

/-- A successful per-event loop realizes the last attribute write of every
written event identity. -/
theorem processEvents_sets_event {env : Env} :
    ∀ {l : List FmEvent} {a b : GraphState} {i : JVal} {p : EventProps},
    lastEventWrite l i = some p → processEvents env l a = .ok b →
    nodeProps b i = some p
  | [], _, _, _, _, hlw, _ => by cases hlw
  | e :: rest, a, b, i, p, hlw, h => by
    unfold processEvents at h
    split at h
    · cases h
    · rename_i a₁ h₁
      unfold lastEventWrite at hlw
      cases hr : lastEventWrite rest i with
      | some p' =>
        rw [hr] at hlw
        cases hlw
        exact processEvents_sets_event hr h
      | none =>
        rw [hr] at hlw
        by_cases hc : (passes_filter e && decide (e.id_ = i)) = true
        · rw [if_pos hc] at hlw
          cases hlw
          rw [processEvents_preserves_event hr h]
          rcases (Bool.and_eq_true _ _).mp hc with ⟨hp, hi⟩
          have hi' : e.id_ = i := of_decide_eq_true hi
          rw [← hi']
          exact processEvent_sets_event h₁ hp
        · rw [if_neg hc] at hlw
          cases hlw

/-- If an event list does not write a build identity, neither does its tail
nor its head. -/
theorem lastBW_none_inv {env : Env} {e : FmEvent} {rest : List FmEvent} {bid : String}
    (h : lastBuildWrite env (e :: rest) bid = none) :
    lastBuildWrite env rest bid = none ∧ lastBuildWriteEvent env e bid = none := by
  unfold lastBuildWrite at h
  cases hr : lastBuildWrite env rest bid with
  | some v => rw [hr] at h; cases h
  | none =>
    rw [hr] at h
    exact ⟨rfl, h⟩

/-- A successful per-event loop leaves unwritten build identities
unchanged. -/
theorem processEvents_preserves_build {env : Env} :
    ∀ {l : List FmEvent} {a b : GraphState} {bid : String},
    lastBuildWrite env l bid = none → processEvents env l a = .ok b →
    buildNvr b bid = buildNvr a bid
  | [], a, b, bid, _, h => by cases h; rfl
  | e :: rest, a, b, bid, hlw, h => by
    obtain ⟨hr, he⟩ := lastBW_none_inv hlw
    unfold processEvents at h
    split at h
    · cases h
    · rename_i a₁ h₁
      exact (processEvents_preserves_build hr h).trans (processEvent_preserves_build he h₁)

/-- A successful per-event loop realizes the last attribute write of every
written build identity. -/
theorem processEvents_sets_build {env : Env} :
    ∀ {l : List FmEvent} {a b : GraphState} {bid : String} {v : JVal},
    lastBuildWrite env l bid = some v → processEvents env l a = .ok b →
    buildNvr b bid = some v
  | [], _, _, _, _, hlw, _ => by cases hlw
  | e :: rest, a, b, bid, v, hlw, h => by
    unfold processEvents at h
    split at h
    · cases h
    · rename_i a₁ h₁
      unfold lastBuildWrite at hlw
      cases hr : lastBuildWrite env rest bid with
      | some v' =>
        rw [hr] at hlw
        cases hlw
        exact processEvents_sets_build hr h
      | none =>
        rw [hr] at hlw
        rw [processEvents_preserves_build hr h]
        exact processEvent_sets_build hlw h₁

/-- An event lookup succeeds exactly when the identity is present. -/
theorem nodeProps_ne_none_iff {st : GraphState} {i : JVal} :
    nodeProps st i ≠ none ↔ i ∈ st.events.map EventNode.id_ := by
  unfold nodeProps
  cases hf : st.events.find? (fun n => decide (n.id_ = i)) with
  | none =>
    rw [List.find?_eq_none] at hf
    constructor
    · intro h
      cases h rfl
    · intro hm
      exfalso
      rcases List.mem_map.mp hm with ⟨n, hn, hni⟩
      exact hf n hn (by simpa using hni)
  | some n =>
    constructor
    · intro _
      have hni : n.id_ = i := by simpa using List.find?_some hf
      exact hni ▸ List.mem_map_of_mem EventNode.id_ (List.mem_of_find?_eq_some hf)
    · intro _ h
      exact Option.noConfusion h

/-- A build lookup succeeds exactly when the identity is present. -/
theorem buildNvr_ne_none_iff {st : GraphState} {bid : String} :
    buildNvr st bid ≠ none ↔ bid ∈ st.builds.map BuildNode.id_ := by
  unfold buildNvr
  cases hf : st.builds.find? (fun b => decide (b.id_ = bid)) with
  | none =>
    rw [List.find?_eq_none] at hf
    constructor
    · intro h
      cases h rfl
    · intro hm
      exfalso
      rcases List.mem_map.mp hm with ⟨b, hb, hbi⟩
      exact hf b hb (by simpa using hbi)
  | some b =>
    constructor
    · intro _
      have hbi : b.id_ = bid := by simpa using List.find?_some hf
      exact hbi ▸ List.mem_map_of_mem BuildNode.id_ (List.mem_of_find?_eq_some hf)
    · intro _ h
      exact Option.noConfusion h

/-- Structurally equal states agree on build identity lists. -/
theorem structEq_build_ids {y b : GraphState} (hS : StructEq y b) :
    y.builds.map BuildNode.id_ = b.builds.map BuildNode.id_ := by
  have h1 : y.builds.map BuildNode.id_ = (y.builds.map buildKey).map Prod.fst := by
    rw [List.map_map]; rfl
  have h2 : b.builds.map BuildNode.id_ = (b.builds.map buildKey).map Prod.fst := by
    rw [List.map_map]; rfl
  rw [h1, h2, hS.2.2.1]

/-- Structurally equal states agree on event presence. -/
theorem structEq_event_presence {y b : GraphState} (hS : StructEq y b) (i : JVal) :
    (nodeProps y i ≠ none ↔ nodeProps b i ≠ none) := by
  rw [nodeProps_ne_none_iff, nodeProps_ne_none_iff, hS.1]

/-- Structurally equal states agree on build presence. -/
theorem structEq_build_presence {y b : GraphState} (hS : StructEq y b) (bid : String) :
    (buildNvr y bid ≠ none ↔ buildNvr b bid ≠ none) := by
  rw [buildNvr_ne_none_iff, buildNvr_ne_none_iff, structEq_build_ids hS]

/-- The overwrites of a builds list leave the events untouched. -/
theorem abw_events (env : Env) :
    ∀ (bds : List BuildDict) (st : GraphState), (applyBuildWrites env bds st).events = st.events
  | [], _ => rfl
  | bd :: rest, st => by
    unfold applyBuildWrites
    cases hR : resolvedId env bd with
    | none => exact abw_events env rest st
    | some bid => exact (abw_events env rest _).trans (applyBuildWrite_events bid bd.original_nvr st)

/-- An event's overwrites set its own node attributes when present. -/
theorem nodeProps_applyWrites_self {env : Env} {e : FmEvent} {st : GraphState}
    (hp : passes_filter e = true) (hpres : nodeProps st e.id_ ≠ none) :
    nodeProps (applyWrites env e st) e.id_ = some (mkProps e) := by
  unfold applyWrites
  rw [hp]
  simp only [if_true]
  rw [nodeProps_congr (abw_events env e.builds _) e.id_]
  exact nodeProps_applyEventWrite_self (mkProps e) hpres

/-- An event's overwrites leave other event lookups unchanged. -/
theorem nodeProps_applyWrites_other {env : Env} {e : FmEvent} {st : GraphState} {i : JVal}
    (hni : ¬(passes_filter e = true ∧ e.id_ = i)) :
    nodeProps (applyWrites env e st) i = nodeProps st i := by
  unfold applyWrites
  cases hp : passes_filter e with
  | false => rfl
  | true =>
    simp only [if_true]
    rw [nodeProps_congr (abw_events env e.builds _) i]
    exact nodeProps_applyEventWrite_other (mkProps e) (fun he => hni ⟨hp, he.symm⟩)

/-- The overwrites of an unwritten event identity are invisible. -/
theorem applyAll_nodeProps_skip {env : Env} :
    ∀ {l : List FmEvent} (y : GraphState) {i : JVal},
    lastEventWrite l i = none → nodeProps (applyAll env l y) i = nodeProps y i
  | [], _, _, _ => rfl
  | e :: rest, y, i, hlw => by
    obtain ⟨hr, hni⟩ := lastEW_none_inv hlw
    unfold applyAll
    exact (applyAll_nodeProps_skip _ hr).trans (nodeProps_applyWrites_other hni)

/-- The overwrites realize the last write of every written, present event
identity. -/
theorem applyAll_nodeProps_write {env : Env} :
    ∀ {l : List FmEvent} (y : GraphState) {i : JVal} {p : EventProps},
    lastEventWrite l i = some p → nodeProps y i ≠ none →
    nodeProps (applyAll env l y) i = some p
  | [], _, _, _, hlw, _ => by cases hlw
  | e :: rest, y, i, p, hlw, hpres => by
    unfold applyAll
    unfold lastEventWrite at hlw
    cases hr : lastEventWrite rest i with
    | some p' =>
      rw [hr] at hlw
      cases hlw
      refine applyAll_nodeProps_write _ hr ?_
      exact (structEq_event_presence (applyWrites_structEq env e y) i).mpr hpres
    | none =>
      rw [hr] at hlw
      by_cases hc : (passes_filter e && decide (e.id_ = i)) = true
      · rw [if_pos hc] at hlw
        cases hlw
        rcases (Bool.and_eq_true _ _).mp hc with ⟨hp, hi⟩
        have hi' : e.id_ = i := of_decide_eq_true hi
        rw [applyAll_nodeProps_skip _ hr, ← hi']
        exact nodeProps_applyWrites_self hp (hi' ▸ hpres)
      · rw [if_neg hc] at hlw
        cases hlw

/-- The overwrites of a builds list are invisible on unwritten build
identities. -/
theorem abw_buildNvr_skip {env : Env} :
    ∀ {bds : List BuildDict} (st : GraphState) {bid : String},
    lastBuildWriteBuilds env bds bid = none →
    buildNvr (applyBuildWrites env bds st) bid = buildNvr st bid
  | [], _, _, _ => rfl
  | bd :: rest, st, bid, hlw => by
    obtain ⟨hr, hbd⟩ := lastBWB_none_inv hlw
    unfold applyBuildWrites
    cases hR : resolvedId env bd with
    | none => exact abw_buildNvr_skip _ hr
    | some bid' =>
      have hne : bid ≠ bid' := fun he => hbd (he ▸ hR)
      exact (abw_buildNvr_skip _ hr).trans (buildNvr_applyBuildWrite_other bd.original_nvr hne)

/-- The overwrites of a builds list realize the last write of every written,
present build identity. -/
theorem abw_buildNvr_write {env : Env} :
    ∀ {bds : List BuildDict} (st : GraphState) {bid : String} {v : JVal},
    lastBuildWriteBuilds env bds bid = some v → buildNvr st bid ≠ none →
    buildNvr (applyBuildWrites env bds st) bid = some v
  | [], _, _, _, hlw, _ => by cases hlw
  | bd :: rest, st, bid, v, hlw, hpres => by
    unfold applyBuildWrites
    unfold lastBuildWriteBuilds at hlw
    cases hr : lastBuildWriteBuilds env rest bid with
    | some v' =>
      rw [hr] at hlw
      cases hlw
      refine abw_buildNvr_write _ hr ?_
      cases hR : resolvedId env bd with
      | none => exact hpres
      | some bid' =>
        exact (structEq_build_presence (applyBuildWrite_structEq bid' bd.original_nvr st)
          bid).mpr hpres
    | none =>
      rw [hr] at hlw
      by_cases hR : resolvedId env bd = some bid
      · rw [if_pos hR] at hlw
        cases hlw
        rw [hR]
        rw [abw_buildNvr_skip _ hr]
        exact buildNvr_applyBuildWrite_self bd.original_nvr hpres
      · rw [if_neg hR] at hlw
        cases hlw

/-- An event's overwrites are invisible on build identities it does not
write. -/
theorem applyWrites_buildNvr_skip {env : Env} {e : FmEvent} {st : GraphState} {bid : String}
    (hlw : lastBuildWriteEvent env e bid = none) :
    buildNvr (applyWrites env e st) bid = buildNvr st bid := by
  unfold applyWrites
  unfold lastBuildWriteEvent at hlw
  cases hp : passes_filter e with
  | false => rfl
  | true =>
    rw [hp] at hlw
    simp only [if_true] at hlw ⊢
    rw [abw_buildNvr_skip _ hlw]
    exact buildNvr_congr (applyEventWrite_builds e.id_ (mkProps e) st) bid

/-- An event's overwrites realize its last write on a present build
identity. -/
theorem applyWrites_buildNvr_write {env : Env} {e : FmEvent} {st : GraphState}
    {bid : String} {v : JVal} (hlw : lastBuildWriteEvent env e bid = some v)
    (hpres : buildNvr st bid ≠ none) :
    buildNvr (applyWrites env e st) bid = some v := by
  unfold applyWrites
  unfold lastBuildWriteEvent at hlw
  cases hp : passes_filter e with
  | false => rw [hp] at hlw; cases hlw
  | true =>
    rw [hp] at hlw
    simp only [if_true] at hlw ⊢
    refine abw_buildNvr_write _ hlw ?_
    rw [buildNvr_congr (applyEventWrite_builds e.id_ (mkProps e) st) bid]
    exact hpres

/-- The overwrites of an event list are invisible on unwritten build
identities. -/
theorem applyAll_buildNvr_skip {env : Env} :
    ∀ {l : List FmEvent} (y : GraphState) {bid : String},
    lastBuildWrite env l bid = none → buildNvr (applyAll env l y) bid = buildNvr y bid
  | [], _, _, _ => rfl
  | e :: rest, y, bid, hlw => by
    obtain ⟨hr, he⟩ := lastBW_none_inv hlw
    unfold applyAll
    exact (applyAll_buildNvr_skip _ hr).trans (applyWrites_buildNvr_skip he)

/-- The overwrites of an event list realize the last write of every written,
present build identity. -/
theorem applyAll_buildNvr_write {env : Env} :
    ∀ {l : List FmEvent} (y : GraphState) {bid : String} {v : JVal},
    lastBuildWrite env l bid = some v → buildNvr y bid ≠ none →
    buildNvr (applyAll env l y) bid = some v
  | [], _, _, _, hlw, _ => by cases hlw
  | e :: rest, y, bid, v, hlw, hpres => by
    unfold applyAll
    unfold lastBuildWrite at hlw
    cases hr : lastBuildWrite env rest bid with
    | some v' =>
      rw [hr] at hlw
      cases hlw
      refine applyAll_buildNvr_write _ hr ?_
      exact (structEq_build_presence (applyWrites_structEq env e y) bid).mpr hpres
    | none =>
      rw [hr] at hlw
      rw [applyAll_buildNvr_skip _ hr]
      exact applyWrites_buildNvr_write hlw hpres

/-- Two event collections with the same identities in the same order, unique
identities, and the same attribute lookups are equal. -/
theorem events_ext : ∀ (xs bs : List EventNode),
    xs.map EventNode.id_ = bs.map EventNode.id_ →
    (bs.map EventNode.id_).Nodup →
    (∀ i, (xs.find? (fun n => decide (n.id_ = i))).map EventNode.props
        = (bs.find? (fun n => decide (n.id_ = i))).map EventNode.props) →
    xs = bs
  | [], [], _, _, _ => rfl
  | [], b :: bs, h, _, _ => by cases h
  | x :: xs, [], h, _, _ => by cases h
  | x :: xs, b :: bs, h, hnd, hp => by
    rw [List.map_cons, List.map_cons] at h
    injection h with h1 h2
    rw [List.map_cons, List.nodup_cons] at hnd
    have hx : x = b := by
      have hpx := hp x.id_
      rw [List.find?_cons_of_pos _ (by simp), List.find?_cons_of_pos _ (by simp [h1])] at hpx
      have h3 : x.props = b.props := by simpa using hpx
      cases x
      cases b
      cases h1
      cases h3
      rfl
    refine congrArg₂ (· :: ·) hx ?_
    refine events_ext xs bs h2 hnd.2 ?_
    intro i
    by_cases hi : i = x.id_
    · subst hi
      have hxs : xs.find? (fun n => decide (n.id_ = x.id_)) = none := by
        rw [List.find?_eq_none]
        intro n hn hd
        have : x.id_ ∈ bs.map EventNode.id_ := by
          rw [← h2]
          exact (of_decide_eq_true hd) ▸ List.mem_map_of_mem EventNode.id_ hn
        exact hnd.1 (h1 ▸ this)
      have hbs : bs.find? (fun n => decide (n.id_ = x.id_)) = none := by
        rw [List.find?_eq_none]
        intro n hn hd
        exact hnd.1 (h1 ▸ ((of_decide_eq_true hd) ▸ List.mem_map_of_mem EventNode.id_ hn))
      rw [hxs, hbs]
    · have hpx := hp i
      rw [List.find?_cons_of_neg _ (by simpa using fun he => hi he.symm),
        List.find?_cons_of_neg _ (by simpa using fun he => hi (h1 ▸ he.symm))] at hpx
      exact hpx

/-- Two build collections with the same identities and labels in the same
order, unique identities, and the same attribute lookups are equal. -/
theorem builds_ext : ∀ (xs bs : List BuildNode),
    xs.map buildKey = bs.map buildKey →
    (bs.map BuildNode.id_).Nodup →
    (∀ bid, (xs.find? (fun c => decide (c.id_ = bid))).map BuildNode.original_nvr
        = (bs.find? (fun c => decide (c.id_ = bid))).map BuildNode.original_nvr) →
    xs = bs
  | [], [], _, _, _ => rfl
  | [], b :: bs, h, _, _ => by cases h
  | x :: xs, [], h, _, _ => by cases h
  | x :: xs, b :: bs, h, hnd, hp => by
    rw [List.map_cons, List.map_cons] at h
    injection h with h1 h2
    have hid : x.id_ = b.id_ := congrArg Prod.fst h1
    have hlb : x.labels = b.labels := congrArg Prod.snd h1
    rw [List.map_cons, List.nodup_cons] at hnd
    have hids : xs.map BuildNode.id_ = bs.map BuildNode.id_ := by
      have e1 : xs.map BuildNode.id_ = (xs.map buildKey).map Prod.fst := by
        rw [List.map_map]; rfl
      have e2 : bs.map BuildNode.id_ = (bs.map buildKey).map Prod.fst := by
        rw [List.map_map]; rfl
      rw [e1, e2, h2]
    have hx : x = b := by
      have hpx := hp x.id_
      rw [List.find?_cons_of_pos _ (by simp), List.find?_cons_of_pos _ (by simp [hid])] at hpx
      have h3 : x.original_nvr = b.original_nvr := by simpa using hpx
      cases x
      cases b
      cases hid
      cases hlb
      cases h3
      rfl
    refine congrArg₂ (· :: ·) hx ?_
    refine builds_ext xs bs h2 hnd.2 ?_
    intro bid
    by_cases hi : bid = x.id_
    · subst hi
      have hxs : xs.find? (fun c => decide (c.id_ = x.id_)) = none := by
        rw [List.find?_eq_none]
        intro c hc hd
        have : x.id_ ∈ bs.map BuildNode.id_ := by
          rw [← hids]
          exact (of_decide_eq_true hd) ▸ List.mem_map_of_mem BuildNode.id_ hc
        exact hnd.1 (hid ▸ this)
      have hbs : bs.find? (fun c => decide (c.id_ = x.id_)) = none := by
        rw [List.find?_eq_none]
        intro c hc hd
        exact hnd.1 (hid ▸ ((of_decide_eq_true hd) ▸ List.mem_map_of_mem BuildNode.id_ hc))
      rw [hxs, hbs]
    · have hpx := hp bid
      rw [List.find?_cons_of_neg _ (by simpa using fun he => hi he.symm),
        List.find?_cons_of_neg _ (by simpa using fun he => hi (hid ▸ he.symm))] at hpx
      exact hpx

/-- Two structurally equal states with unique identities and the same
attribute lookups are equal. -/
theorem state_ext {x b : GraphState} (hS : StructEq x b) (hw : WF b)
    (hE : ∀ i, nodeProps x i = nodeProps b i)
    (hB : ∀ bid, buildNvr x bid = buildNvr b bid) : x = b := by
  obtain ⟨hEv, hAdv, hBld, hT, hTB⟩ := hS
  have h1 : x.events = b.events := by
    refine events_ext _ _ hEv hw.1 ?_
    intro i
    have := hE i
    unfold nodeProps at this
    exact this
  have h2 : x.builds = b.builds := by
    refine builds_ext _ _ hBld hw.2 ?_
    intro bid
    have := hB bid
    unfold buildNvr at this
    exact this
  cases x
  cases b
  simp_all

/-- A state already carrying every last write of a feed is a fixed point of
its overwrites. -/
theorem applyAll_fix {env : Env} {l : List FmEvent} {b : GraphState} (hw : WF b)
    (hE : ∀ i p, lastEventWrite l i = some p → nodeProps b i = some p)
    (hB : ∀ bid v, lastBuildWrite env l bid = some v → buildNvr b bid = some v) :
    applyAll env l b = b := by
  refine state_ext (applyAll_structEq env l b) hw ?_ ?_
  · intro i
    cases hlw : lastEventWrite l i with
    | none => exact applyAll_nodeProps_skip b hlw
    | some p =>
      have hbp := hE i p hlw
      rw [applyAll_nodeProps_write b hlw (by rw [hbp]; exact fun hc => Option.noConfusion hc)]
      rw [hbp]
  · intro bid
    cases hlw : lastBuildWrite env l bid with
    | none => exact applyAll_buildNvr_skip b hlw
    | some v =>
      have hbp := hB bid v hlw
      rw [applyAll_buildNvr_write b hlw (by rw [hbp]; exact fun hc => Option.noConfusion hc)]
      rw [hbp]

/-- Replaying a successfully processed event list over its own result is the
identity: the core idempotence of the per-event loop. -/
theorem processEvents_idem {env : Env} {l : List FmEvent} {a b : GraphState}
    (h : processEvents env l a = .ok b) (hwa : WF a) :
    processEvents env l b = .ok b := by
  have hwb : WF b := processEvents_wf h hwa
  have hrep := processEvents_replay b h hwb (StructEq.refl b) (processEvents_covers h)
  rw [hrep]
  rw [applyAll_fix hwb (fun i p hlw => processEvents_sets_event hlw h)
    (fun bid v hlw => processEvents_sets_build hlw h)]

/-- The per-event loop over a concatenation is the sequential composition. -/
theorem processEvents_append (env : Env) : ∀ (l₁ l₂ : List FmEvent) (st : GraphState),
    processEvents env (l₁ ++ l₂) st =
      Except.bind (processEvents env l₁ st) (processEvents env l₂)
  | [], _, _ => rfl
  | e :: rest, l₂, st => by
    show (match processEvent env e st with
      | .error err => .error err
      | .ok st' => processEvents env (rest ++ l₂) st') =
      Except.bind (match processEvent env e st with
        | .error err => .error err
        | .ok st' => processEvents env rest st') (processEvents env l₂)
    cases hpe : processEvent env e st with
    | error err => rfl
    | ok st₁ => exact processEvents_append env rest l₂ st₁

/-- A successful pagination sweep is the per-event loop over the
concatenated feed items, and the fetch count matches the page count. -/
theorem qapi_flatten {env : Env} : ∀ {fuel : Nat} {url : String} {st st' : GraphState} {n : Nat},
    query_api_and_update_neo4j env fuel url st = .ok (st', n) →
    ∃ l, feedItems env fuel url = some (l, n) ∧ processEvents env l st = .ok st'
  | 0, url, st, st', n, h => by cases h
  | fuel + 1, url, st, st', n, h => by
    unfold query_api_and_update_neo4j at h
    unfold feedItems
    cases hpg : env.pages url with
    | none => rw [hpg] at h; cases h
    | some page =>
      rw [hpg] at h
      dsimp only at h ⊢
      cases hpe : processEvents env page.items st with
      | error e => rw [hpe] at h; cases h
      | ok st₁ =>
        rw [hpe] at h
        dsimp only at h
        cases hnx : page.next with
        | none =>
          rw [hnx] at h
          dsimp only at h ⊢
          cases h
          exact ⟨page.items, rfl, hpe⟩
        | some u =>
          rw [hnx] at h
          dsimp only at h ⊢
          cases hrec : query_api_and_update_neo4j env fuel u st₁ with
          | error e => rw [hrec] at h; cases h
          | ok pr =>
            obtain ⟨st₂, c⟩ := pr
            rw [hrec] at h
            dsimp only at h
            cases h
            obtain ⟨l', hf, hp⟩ := qapi_flatten hrec
            refine ⟨page.items ++ l', ?_, ?_⟩
            · rw [hf]
            · rw [processEvents_append env page.items l' st, hpe]
              exact hp

/-- Conversely, a terminating feed walk plus a successful per-event loop
over its concatenated items yields the full pagination sweep. -/
theorem qapi_unflatten {env : Env} :
    ∀ {fuel : Nat} {url : String} {st st' : GraphState} {l : List FmEvent} {n : Nat},
    feedItems env fuel url = some (l, n) → processEvents env l st = .ok st' →
    query_api_and_update_neo4j env fuel url st = .ok (st', n)
  | 0, url, st, st', l, n, hf, _ => by cases hf
  | fuel + 1, url, st, st', l, n, hf, hp => by
    unfold feedItems at hf
    unfold query_api_and_update_neo4j
    cases hpg : env.pages url with
    | none => rw [hpg] at hf; cases hf
    | some page =>
      rw [hpg] at hf
      dsimp only at hf ⊢
      cases hnx : page.next with
      | none =>
        rw [hnx] at hf
        dsimp only at hf ⊢
        cases hf
        rw [hp]
      | some u =>
        rw [hnx] at hf
        dsimp only at hf ⊢
        cases hfi : feedItems env fuel u with
        | none => rw [hfi] at hf; cases hf
        | some pr =>
          obtain ⟨l', c⟩ := pr
          rw [hfi] at hf
          dsimp only at hf
          cases hf
          rw [processEvents_append env page.items l' st] at hp
          cases hpe : processEvents env page.items st with
          | error e => rw [hpe] at hp; cases hp
          | ok st₁ =>
            rw [hpe] at hp
            dsimp only
            rw [qapi_unflatten hfi hp]

/-- Walking a chained finite feed visits exactly its pages, concatenating
their items in feed order and counting one fetch per page. -/
theorem feedChain_feedItems {env : Env} :
    ∀ {ps : List Page} {url : String} {fuel : Nat},
    feedChain env url ps = true → ps.length ≤ fuel →
    feedItems env fuel url = some ((ps.map Page.items).flatten, ps.length)
  | [], url, fuel, h, _ => by
    unfold feedChain at h
    cases h
  | [p], url, fuel, h, hlen => by
    unfold feedChain at h
    rcases (Bool.and_eq_true _ _).mp h with ⟨h1, h2⟩
    have hp : env.pages url = some p := of_decide_eq_true h1
    have hn : p.next = none := of_decide_eq_true h2
    cases fuel with
    | zero => simp at hlen
    | succ f =>
      unfold feedItems
      rw [hp]
      dsimp only
      rw [hn]
      simp [List.flatten]
  | p :: q :: rest, url, fuel, h, hlen => by
    unfold feedChain at h
    cases hp : env.pages url with
    | none =>
      rw [hp] at h
      cases hnn : p.next <;> (rw [hnn] at h; cases h)
    | some p' =>
      cases hn : p.next with
      | none =>
        rw [hp, hn] at h
        cases h
      | some u =>
        rw [hp, hn] at h
        dsimp only at h
        rcases (Bool.and_eq_true _ _).mp h with ⟨h1, hchain⟩
        have hpp : p' = p := of_decide_eq_true h1
        subst hpp
        cases fuel with
        | zero => simp at hlen
        | succ f =>
          unfold feedItems
          rw [hp]
          dsimp only
          rw [hn]
          dsimp only
          rw [feedChain_feedItems hchain (Nat.le_of_succ_le_succ hlen)]
          simp [List.flatten]

/-- The conditional connect keeps the triggered_by source keys free of
duplicates. -/
theorem cc_nodup {st : GraphState} (eid : JVal) (k : Int)
    (h : (st.triggered_by.map Prod.fst).Nodup) :
    ((conditional_connect eid k st).triggered_by.map Prod.fst).Nodup := by
  unfold conditional_connect
  split
  · exact h
  · rename_i hany
    show ((st.triggered_by ++ [(eid, k)]).map Prod.fst).Nodup
    rw [List.map_append, List.nodup_append]
    refine ⟨h, by simp, ?_⟩
    intro a ha hai
    have hai' : a = eid := by simpa using hai
    subst hai'
    rcases List.mem_map.mp ha with ⟨pr, hpr, hpri⟩
    exact hany (List.any_eq_true.mpr ⟨pr, hpr, by simpa using hpri⟩)

/-- The per-event loop body keeps the triggered_by source keys free of
duplicates. -/
theorem processEvent_tb_nodup {env : Env} {e : FmEvent} {st st' : GraphState}
    (h : processEvent env e st = .ok st')
    (hnd : (st.triggered_by.map Prod.fst).Nodup) :
    (st'.triggered_by.map Prod.fst).Nodup := by
  unfold processEvent at h
  split at h
  · cases h
    exact hnd
  · cases h
  · rename_i k hk
    rw [(processBuilds_frame h).2.2]
    apply cc_nodup
    rw [goc_triggered_by, cou_triggered_by]
    exact hnd

/-- The per-event loop keeps the triggered_by source keys free of
duplicates. -/
theorem processEvents_tb_nodup {env : Env} :
    ∀ {l : List FmEvent} {st st' : GraphState},
    processEvents env l st = .ok st' →
    (st.triggered_by.map Prod.fst).Nodup → (st'.triggered_by.map Prod.fst).Nodup
  | [], _, _, h, hnd => by cases h; exact hnd
  | e :: rest, st, st', h, hnd => by
    unfold processEvents at h
    split at h
    · cases h
    · rename_i st₁ h₁
      exact processEvents_tb_nodup h (processEvent_tb_nodup h₁ hnd)

/-- In an edge list whose source keys are free of duplicates, a source
determines its target. -/
theorem nodup_keys_unique {α β : Type} :
    ∀ {l : List (α × β)}, ((l.map Prod.fst).Nodup) →
    ∀ {i : α} {a a' : β}, (i, a) ∈ l → (i, a') ∈ l → a = a'
  | [], _, _, _, _, h1, _ => by cases h1
  | pr :: rest, hnd, i, a, a', h1, h2 => by
    rw [List.map_cons, List.nodup_cons] at hnd
    rcases List.mem_cons.mp h1 with he1 | ht1 <;> rcases List.mem_cons.mp h2 with he2 | ht2
    · rw [← he1] at he2
      exact (Prod.mk.injEq _ _ _ _).mp he2.symm |>.2
    · exfalso
      apply hnd.1
      rw [← he1]
      exact List.mem_map.mpr ⟨(i, a'), ht2, rfl⟩
    · exfalso
      apply hnd.1
      rw [← he2]
      exact List.mem_map.mpr ⟨(i, a), ht1, rfl⟩
    · exact nodup_keys_unique hnd.2 ht1 ht2

/-! ## The claims -/

/-- C1: Running the full pipeline (run / query_api_and_update_neo4j) twice
in succession against an unchanged feed leaves the graph store in the same
state as running it once: the second run returns the state of the first run
unchanged (so no duplicate Event, Advisory, or Build nodes and no duplicate
triggered_by or triggered_builds edges are created by the second run), with
the same fetch count.  Well-formedness of the starting store is the
uniqueness constraint the store itself enforces. -/
theorem claim_C1 {env : Env} {fuel n : Nat} {url : String} {st₀ st₁ : GraphState}
    (hwf : WF st₀)
    (h : query_api_and_update_neo4j env fuel url st₀ = .ok (st₁, n)) :
    query_api_and_update_neo4j env fuel url st₁ = .ok (st₁, n) := by
  obtain ⟨l, hf, hp⟩ := qapi_flatten h
  exact qapi_unflatten hf (processEvents_idem hp hwf)

theorem claim_C1_witness :
    WF emptyStore ∧
    query_api_and_update_neo4j envC1 5 "p1" emptyStore = .ok (stC1, 1) ∧
    query_api_and_update_neo4j envC1 5 "p1" stC1 = .ok (stC1, 1) := by
  have hwf : WF emptyStore := ⟨List.nodup_nil, List.nodup_nil⟩
  have h : query_api_and_update_neo4j envC1 5 "p1" emptyStore = .ok (stC1, 1) := rfl
  exact ⟨hwf, h, claim_C1 hwf h⟩

/-- C2: For every build id whose typed create-or-update as ContainerBuild
raises a uniqueness/constraint violation: if no generic Build node with that
id exists, the violation is re-raised as fatal; if such a node exists, the
ContainerKojiBuild label is added to it and the typed create-or-update is
retried exactly once (the attempt counter reads 2), and any failure of that
second attempt propagates with no further retry. -/
theorem claim_C2 (bid : String) (nvr : JVal) (st : GraphState)
    (h : ContainerKojiBuild.create_or_update bid nvr st = .error .constraintViolation) :
    upsertContainerBuild bid nvr st =
      (match KojiBuild.get_or_none bid st with
       | none => .error .constraintViolation
       | some _ =>
         (ContainerKojiBuild.create_or_update bid nvr (add_label bid st)).map
           (fun st' => (st', 2))) := by
  unfold upsertContainerBuild
  rw [h]
  dsimp only
  cases KojiBuild.get_or_none bid st with
  | none => rfl
  | some b =>
    cases ContainerKojiBuild.create_or_update bid nvr (add_label bid st) with
    | ok st' => rfl
    | error e => rfl

theorem claim_C2_witness :
    ContainerKojiBuild.create_or_update "b1" (.jstr "x") stC2 = .error .constraintViolation ∧
    upsertContainerBuild "b1" (.jstr "x") stC2 =
      (ContainerKojiBuild.create_or_update "b1" (.jstr "x") (add_label "b1" stC2)).map
        (fun st' => (st', 2)) := by
  have h : ContainerKojiBuild.create_or_update "b1" (.jstr "x") stC2 =
      .error .constraintViolation := rfl
  exact ⟨h, (claim_C2 "b1" (.jstr "x") stC2 h).trans rfl⟩

/-- C8: For every finite feed of n pages in which pages 1..n-1 carry a next
reference and page n does not, the pagination loop performs exactly n
fetches, processes every item of every page in feed order (the run equals
the per-event loop over the concatenated items), and terminates. -/
theorem claim_C8 {env : Env} {url : String} {ps : List Page} {fuel : Nat}
    {st st' : GraphState}
    (hchain : feedChain env url ps = true) (hfuel : ps.length ≤ fuel)
    (hp : processEvents env ((ps.map Page.items).flatten) st = .ok st') :
    query_api_and_update_neo4j env fuel url st = .ok (st', ps.length) :=
  qapi_unflatten (feedChain_feedItems hchain hfuel) hp

theorem claim_C8_witness :
    feedChain envC8 "q1" psC8 = true ∧
    processEvents envC8 ((psC8.map Page.items).flatten) emptyStore = .ok stC8 ∧
    query_api_and_update_neo4j envC8 5 "q1" emptyStore = .ok (stC8, 3) := by
  have hc : feedChain envC8 "q1" psC8 = true := rfl
  have hp : processEvents envC8 ((psC8.map Page.items).flatten) emptyStore = .ok stC8 := rfl
  exact ⟨hc, hp, claim_C8 hc (by decide) hp⟩

/-- C9: In every graph state reachable by running the pipeline from a store
whose events have at most one triggered_by edge each, an Event still has at
most one triggered_by edge (the source keys carry no duplicates), and every
processed event of the feed whose advisory reference resolves is linked to
exactly one Advisory. -/
theorem claim_C9 {env : Env} {fuel n : Nat} {url : String} {st st' : GraphState}
    (hnd : (st.triggered_by.map Prod.fst).Nodup)
    (h : query_api_and_update_neo4j env fuel url st = .ok (st', n)) :
    (st'.triggered_by.map Prod.fst).Nodup ∧
    ∀ l c, feedItems env fuel url = some (l, c) →
      ∀ e ∈ l, ∀ k, pyInt e.search_key = .ok k →
        ∃ a, (e.id_, a) ∈ st'.triggered_by ∧
          ∀ a', (e.id_, a') ∈ st'.triggered_by → a' = a := by
  obtain ⟨l₀, hf, hp⟩ := qapi_flatten h
  have hnd' := processEvents_tb_nodup hp hnd
  refine ⟨hnd', ?_⟩
  intro l c hfi e he k hk
  rw [hf] at hfi
  injection hfi with hfi'
  injection hfi' with hl hc
  subst hl
  obtain ⟨_, _, ⟨a, ha⟩, _⟩ := processEvents_covers hp e he k hk
  exact ⟨a, ha, fun a' ha' => nodup_keys_unique hnd' ha' ha⟩

theorem claim_C9_witness :
    ((emptyStore.triggered_by.map Prod.fst).Nodup) ∧
    query_api_and_update_neo4j envC1 5 "p1" emptyStore = .ok (stC1, 1) ∧
    (stC1.triggered_by.map Prod.fst).Nodup := by
  have hnd : (emptyStore.triggered_by.map Prod.fst).Nodup := List.nodup_nil
  have h : query_api_and_update_neo4j envC1 5 "p1" emptyStore = .ok (stC1, 1) := rfl
  exact ⟨hnd, h, (claim_C9 hnd h).1⟩

/-- C3 counterexample: a build entry whose resolved task result is a
structurally malformed XML document does not yield absent with a non-fatal
skip — the whole run aborts with the parse error (task 101 of envC3 returns
malformed XML; the following resolvable build entry is never processed and
nothing is written). -/
theorem claim_C3_counterexample :
    get_koji_task_result envC3 101 = some (.xml .malformed) ∧
    query_api_and_update_neo4j envC3 5 "p1" emptyStore = .error .xmlParseError :=
  ⟨rfl, rfl⟩

/-- C3 amended: for every build entry whose task id is truthy, parses, is
non-negative, and whose task result is a structurally malformed XML
document, the per-build loop raises the parse error, aborting the loop and
hence the run; only an absent or empty koji_builds field yields absent and a
non-fatal skip. -/
theorem claim_C3_amended {env : Env} {eid : JVal} {bd : BuildDict} {st : GraphState}
    {taskId : Int} (ht : pyTruthy bd.build_id = true) (hi : pyInt bd.build_id = .ok taskId)
    (hn : ¬ taskId < 0) (hg : get_koji_task_result env taskId = some (.xml .malformed)) :
    processBuild env eid bd st = .error .xmlParseError ∧
    ∀ rest, processBuilds env eid (bd :: rest) st = .error .xmlParseError := by
  have hb : processBuild env eid bd st = .error .xmlParseError := by
    unfold processBuild
    rw [ht, hi]
    simp [hn, hg]
  refine ⟨hb, ?_⟩
  intro rest
  unfold processBuilds
  rw [hb]

theorem claim_C3_amended_witness :
    pyTruthy (BuildDict.build_id ⟨.jint 101, .jstr "n1"⟩) = true ∧
    get_koji_task_result envC3 101 = some (.xml .malformed) ∧
    processBuild envC3 (.jint 9) ⟨.jint 101, .jstr "n1"⟩ emptyStore =
      .error .xmlParseError := by
  refine ⟨rfl, rfl, ?_⟩
  exact (@claim_C3_amended envC3 (.jint 9) ⟨.jint 101, .jstr "n1"⟩ emptyStore 101
    rfl rfl (by decide) rfl).1

/-- C4 counterexample: the build entry with build_id 0 has a present
(non-null), non-negative task identifier — and its task 0 would even resolve
to build "55" — yet the defensive filter skips it and no Build node is
created, contradicting the claim that exactly the missing-or-negative
entries are skipped. -/
theorem claim_C4_counterexample :
    (⟨.jint 0, .jstr "nvr"⟩ : BuildDict).build_id ≠ .jnull ∧
    pyInt (⟨.jint 0, .jstr "nvr"⟩ : BuildDict).build_id = .ok 0 ∧
    ¬ (0 : Int) < 0 ∧
    get_koji_task_result envC4 0 = some (.xml (.parsed (some (some "55")))) ∧
    processBuild envC4 (.jint 1) ⟨.jint 0, .jstr "nvr"⟩ emptyStore = .ok emptyStore :=
  ⟨by decide, rfl, by decide, rfl, rfl⟩

/-- C4 amended: a build entry is skipped at the defensive filter exactly
when its build_id is falsy (null, zero, or the empty string) or parses to a
negative integer; a truthy build_id on which int() raises propagates the
exception; a truthy, non-negatively parsing entry proceeds to task
resolution; and a skipped entry leaves the state unchanged, so no Build
node is created from it. -/
theorem claim_C4_amended (env : Env) (eid : JVal) (bd : BuildDict) (st : GraphState) :
    (pyTruthy bd.build_id = false → processBuild env eid bd st = .ok st) ∧
    (∀ t, pyInt bd.build_id = .ok t → t < 0 → processBuild env eid bd st = .ok st) ∧
    (∀ err, pyTruthy bd.build_id = true → pyInt bd.build_id = .error err →
      processBuild env eid bd st = .error err) ∧
    (∀ t, pyTruthy bd.build_id = true → pyInt bd.build_id = .ok t → ¬ t < 0 →
      processBuild env eid bd st =
        (match get_koji_task_result env t with
         | none => .ok st
         | some .falsyVal => .ok st
         | some (.xml .malformed) => .error .xmlParseError
         | some (.xml (.parsed found)) =>
           match (match found with | none => none | some x => x : Option String) with
           | none => .ok st
           | some str =>
             if str = "" then .ok st
             else
               match upsertContainerBuild str bd.original_nvr st with
               | .error err => .error err
               | .ok (st₁, _) => .ok (connect_triggered_builds eid str st₁))) := by
  refine ⟨?_, ?_, ?_, ?_⟩
  · intro hf
    unfold processBuild
    rw [hf]
    rfl
  · intro t hi hneg
    unfold processBuild
    cases hT : pyTruthy bd.build_id with
    | false => rfl
    | true =>
      rw [hi]
      simp [hneg]
  · intro err hT hi
    unfold processBuild
    rw [hT, hi]
    rfl
  · intro t hT hi hn
    unfold processBuild
    rw [hT, hi]
    simp [hn]

theorem claim_C4_amended_witness :
    processBuild envC4 (.jint 1) ⟨.jint 0, .jstr "n"⟩ emptyStore = .ok emptyStore :=
  (claim_C4_amended envC4 (.jint 1) ⟨.jint 0, .jstr "n"⟩ emptyStore).1 (by decide)

/-- C5: For every event that passes the integer filter with parsed value k,
the Advisory node is upserted using k as its identity: the resulting
advisory collection is the start collection extended by k when absent, and
k is present afterwards. -/
theorem claim_C5 {env : Env} {e : FmEvent} {st st' : GraphState} {k : Int}
    (hk : pyInt e.search_key = .ok k) (h : processEvent env e st = .ok st') :
    st'.advisories =
      (if k ∈ st.advisories then st.advisories else st.advisories ++ [k]) ∧
    k ∈ st'.advisories := by
  unfold processEvent at h
  rw [hk] at h
  have hfr := (processBuilds_frame h).2.1
  constructor
  · rw [hfr, cc_advisories]
    unfold Advisory.get_or_create
    by_cases hm : k ∈ st.advisories
    · rw [if_pos (by rw [cou_advisories]; exact hm), if_pos hm, cou_advisories]
    · rw [if_neg (by rw [cou_advisories]; exact hm), if_neg hm]
      show (FreshmakerEvent.create_or_update e.id_ (mkProps e) st).advisories ++ [k] =
        st.advisories ++ [k]
      rw [cou_advisories]
  · rw [hfr, cc_advisories]
    exact goc_mem k _

theorem claim_C5_witness :
    pyInt eC5.search_key = .ok 7 ∧
    ∃ st', processEvent envNone eC5 emptyStore = .ok st' ∧
      st'.advisories = [7] ∧ (7 : Int) ∈ st'.advisories := by
  have hk : pyInt eC5.search_key = .ok 7 := rfl
  have h : processEvent envNone eC5 emptyStore =
      .ok ⟨[⟨.jint 11, ⟨.jint 1, .jstr "m", .jint 2, .jstr "D", .jstr "", .jstr "u"⟩⟩],
        [7], [], [(.jint 11, 7)], []⟩ := rfl
  have hc := claim_C5 hk h
  exact ⟨hk, _, h, hc.1, hc.2⟩

/-- C6 counterexample: the event eC6 has a search_key (null) that does not
parse as an integer, yet it is not skipped non-fatally: int(None) raises
TypeError, which the except ValueError handler does not catch, so the run
aborts. -/
theorem claim_C6_counterexample :
    pyInt eC6.search_key = .error .typeError ∧
    processEvent envNone eC6 emptyStore = .error .typeError :=
  ⟨rfl, rfl⟩

/-- C6 amended: every event whose search_key is a string that does not
parse as an integer is skipped entirely and non-fatally — the state is
unchanged (no Event node, no Advisory node, no edges) and the per-event
loop continues with the remaining events; a null search_key instead raises
an uncaught TypeError aborting the run. -/
theorem claim_C6_amended (env : Env) (e : FmEvent) (st : GraphState) (s : String)
    (hs : e.search_key = .jstr s) (hp : parseIntStr s = none) :
    processEvent env e st = .ok st ∧
    ∀ rest, processEvents env (e :: rest) st = processEvents env rest st := by
  have hv : pyInt e.search_key = .error .valueError := by
    rw [hs]
    show (match parseIntStr s with
      | some n => Except.ok n
      | none => Except.error PyExc.valueError) = .error .valueError
    rw [hp]
  have h1 : processEvent env e st = .ok st := by
    unfold processEvent
    rw [hv]
  refine ⟨h1, ?_⟩
  intro rest
  show (match processEvent env e st with
    | .error err => .error err
    | .ok st' => processEvents env rest st') = processEvents env rest st
  rw [h1]

theorem claim_C6_amended_witness :
    processEvent envNone (mkSimpleEvent 13 "RHBA-2019") emptyStore = .ok emptyStore ∧
    processEvents envNone [mkSimpleEvent 13 "RHBA-2019"] emptyStore =
      processEvents envNone [] emptyStore := by
  have hc := claim_C6_amended envNone (mkSimpleEvent 13 "RHBA-2019") emptyStore
    "RHBA-2019" rfl rfl
  exact ⟨hc.1, hc.2 []⟩

/-- C7: For every task id of a build entry that reaches task resolution,
resolution returns absent when the query service returns no row or the
returned row lacks the result column; and the pipeline skips the build
entry without an error and without fabricating a build id when resolution
is absent, when the result XML lacks a koji_builds string (no element, or
an element without text), or when that field is the empty string. -/
theorem claim_C7 {env : Env} {eid : JVal} {bd : BuildDict} {st : GraphState} {t : Int}
    (ht : pyTruthy bd.build_id = true) (hi : pyInt bd.build_id = .ok t) (hn : ¬ t < 0) :
    (env.taskRows t = [] → get_koji_task_result env t = none) ∧
    (∀ row rest, env.taskRows t = row :: rest → row.result = none →
      get_koji_task_result env t = none) ∧
    (get_koji_task_result env t = none → processBuild env eid bd st = .ok st) ∧
    (∀ found, get_koji_task_result env t = some (.xml (.parsed found)) →
      found = none ∨ found = some none ∨ found = some (some "") →
      processBuild env eid bd st = .ok st) := by
  refine ⟨?_, ?_, ?_, ?_⟩
  · intro hr
    unfold get_koji_task_result
    rw [hr]
  · intro row rest hr hres
    unfold get_koji_task_result
    rw [hr]
    exact hres
  · intro hg
    unfold processBuild
    rw [ht, hi]
    simp [hn, hg]
  · intro found hg hdis
    unfold processBuild
    rw [ht, hi]
    rcases hdis with hf | hf | hf <;> (subst hf; simp [hn, hg])

theorem claim_C7_witness :
    get_koji_task_result envNone 5 = none ∧
    processBuild envNone (.jint 1) ⟨.jint 5, .jstr "n"⟩ emptyStore = .ok emptyStore := by
  have hc := @claim_C7 envNone (.jint 1) ⟨.jint 5, .jstr "n"⟩ emptyStore 5
    rfl rfl (by decide)
  have hg : get_koji_task_result envNone 5 = none := hc.1 rfl
  exact ⟨hg, hc.2.2.1 hg⟩

/-- C10: There is a build entry whose build_id is a present, non-empty
value that does not parse as an integer (the string "abc"); on it the
defensive filter's unguarded int conversion raises ValueError, which is
not caught, and the entire run aborts rather than the entry being skipped
non-fatally. -/
theorem claim_C10 :
    pyTruthy (JVal.jstr "abc") = true ∧
    pyInt (JVal.jstr "abc") = .error .valueError ∧
    query_api_and_update_neo4j envC10 5 "p1" emptyStore = .error .valueError :=
  ⟨rfl, rfl, rfl⟩
